import Mathlib

/-!
# fgee: middleware chain execution and route groups

A shallow embedding of the request context (`fgee/context.go`) and of the
engine / route-group registration code (`fgee.go`), followed by theorems about
the order in which a handler chain is executed, about the cursor, about the
group registry and about the per-request key store.

Modelling conventions.

* A Go string is a sequence of bytes.  It is represented by a Lean `String`,
  and `strings.HasPrefix` compares the sequences of units (`String.data`);
  on text the byte-wise and the character-wise prefix tests agree.
* The cursor `index` has Go type `int8`.  It is an `Int` here and every write
  goes through `int8`, the two's-complement truncation to 8 bits.
* A `HandlerFunc` is a Go closure over `*Context`.  Its body is represented by
  the sequence of context operations it performs when it is invoked (`Op`):
  `c.Next()`, `c.Fail(..)`, `c.Set(..)`, `c.Status(..)` and an observable
  marker `log`.
* Pointers (`*RouterGroup`, `*Engine`) are addresses into a `Heap`; following
  a pointer that is not allocated is `none`.
* A run can end in three ways (`Outcome`): it returns, it raises Go's
  "index out of range" run-time panic, or the model runs out of fuel.
* `trace` and `cursorLog` are ghost fields: the first records which handler
  slots were invoked, which markers were emitted, and when `Fail` was called
  and `Next` returned to a handler; the second records every value written to
  the cursor.
-/

namespace Fgee

/-! ## Data model of `fgee/context.go` -/

/-- Stand-in for Go's `interface{}` values stored in `Context.Keys`. -/
inductive Value where
  | nil : Value
  | str (s : String) : Value
  | num (n : Int) : Value
  deriving DecidableEq, Repr

/-- One context operation performed by a handler body. -/
inductive Op where
  | log (tag : Nat) : Op
  | next : Op
  | fail (code : Int) (err : String) : Op
  | set (key : String) (value : Value) : Op
  | status (code : Int) : Op
  deriving DecidableEq, Repr

/-- The body of a `HandlerFunc`, as the operations it performs in order. -/
abbrev HandlerFunc := List Op

/-- Ghost events recorded while a chain runs. -/
inductive Event where
  | enter (i : Int) : Event
  | log (tag : Nat) : Event
  | resume (i : Int) : Event
  | failed (code : Int) : Event
  deriving DecidableEq, Repr

/-- The struct `Context`.  The response side of the field `Ctx` is held as
`body`, what was written so far, and `writes`, the outcome of the coming
response writes (`true` is success, and an exhausted list means success);
`engine` is the engine pointer, nil in a new context. -/
structure Context where
  Path : String
  Method : String
  Params : List (String × String)
  StatusCode : Int
  handlers : List HandlerFunc
  index : Int
  Keys : Option (List (String × Value))
  body : List String
  writes : List Bool
  engine : Option Nat
  trace : List Event
  cursorLog : List Int
  deriving DecidableEq, Repr

/-- How a run ended. -/
inductive Outcome where
  | ok : Outcome
  | panicked : Outcome
  | timeout : Outcome
  deriving DecidableEq, Repr

/-- A context together with the way the run that produced it ended. -/
structure Res where
  c : Context
  out : Outcome
  deriving DecidableEq, Repr

/-- Conversion of an integer to Go's `int8` (two's complement, 8 bits). -/
def int8 (x : Int) : Int := (x + 128) % 256 - 128

/-- The function `newContext`: cursor `-1`, `Keys` nil, everything else zero. -/
def newContext (path method : String) : Context :=
  { Path := path, Method := method, Params := [], StatusCode := 0,
    handlers := [], index := -1, Keys := none, body := [], writes := [],
    engine := none, trace := [], cursorLog := [] }

/-- A write to the cursor `c.index`. -/
def setIndex (c : Context) (v : Int) : Context :=
  { c with index := v, cursorLog := c.cursorLog ++ [v] }

/-- Ghost: append an event to the trace. -/
def emit (c : Context) (e : Event) : Context :=
  { c with trace := c.trace ++ [e] }

/-- The method `Context.Status`. -/
def Status (c : Context) (code : Int) : Context :=
  { c with StatusCode := code }

/-- The methods `Context.JSON` and `Context.Fail`, which call each other:
`JSON` sets the status and writes; when the write fails it calls
`Fail(500, ..)`, which moves the cursor to `int8(len(c.handlers))` and calls
`JSON` again.  The recursion is over the outcomes of the coming writes. -/
def jsonWith : List Bool → Context → Int → String → Context
  | [], c, code, obj =>
      { Status c code with body := c.body ++ [obj], writes := [] }
  | true :: ws, c, code, obj =>
      { Status c code with body := c.body ++ [obj], writes := ws }
  | false :: ws, c, code, _ =>
      jsonWith ws
        (emit (setIndex { Status c code with writes := ws }
          (int8 (c.handlers.length : Int))) (Event.failed 500))
        500 "Internal Server Error"

/-- The method `Context.JSON`. -/
def JSON (c : Context) (code : Int) (obj : String) : Context :=
  jsonWith c.writes c code obj

/-- The method `Context.Fail`. -/
def Fail (c : Context) (code : Int) (err : String) : Context :=
  JSON (emit (setIndex c (int8 (c.handlers.length : Int))) (Event.failed code)) code err

/-- Insertion into a Go map, as an association list with unique keys. -/
def mapInsert (k : String) (v : Value) : List (String × Value) → List (String × Value)
  | [] => [(k, v)]
  | (k', v') :: m => if k' = k then (k, v) :: m else (k', v') :: mapInsert k v m

/-- Lookup in a Go map. -/
def mapLookup (k : String) : List (String × Value) → Option Value
  | [] => none
  | (k', v') :: m => if k' = k then some v' else mapLookup k m

/-- The method `Context.Set`. -/
def Set (c : Context) (key : String) (value : Value) : Context :=
  let keys := match c.Keys with
    | none => []
    | some m => m
  { c with Keys := some (mapInsert key value keys) }

/-- The method `Context.Get`: the context after the call (the method writes
nothing) and the pair `(value, exists)`; reading a nil map yields the zero
value. -/
def Get (c : Context) (key : String) : Context × Value × Bool :=
  match c.Keys with
  | none => (c, Value.nil, false)
  | some m =>
    match mapLookup key m with
    | none => (c, Value.nil, false)
    | some v => (c, v, true)

/-- The indexing `c.handlers[c.index]`; `none` is the run-time panic. -/
def handlerAt (c : Context) : Option HandlerFunc :=
  if 0 ≤ c.index then c.handlers[c.index.toNat]? else none

/-- Execution of a handler body sitting in slot `pos`; `nxt` is what a call of
`c.Next()` does. -/
def runBody (nxt : Context → Res) (pos : Int) : List Op → Context → Res
  | [], c => ⟨c, Outcome.ok⟩
  | Op.log tag :: rest, c => runBody nxt pos rest (emit c (Event.log tag))
  | Op.next :: rest, c =>
      let r := nxt c
      match r.out with
      | Outcome.ok => runBody nxt pos rest (emit r.c (Event.resume pos))
      | _ => r
  | Op.fail code err :: rest, c => runBody nxt pos rest (Fail c code err)
  | Op.set key value :: rest, c => runBody nxt pos rest (Set c key value)
  | Op.status code :: rest, c => runBody nxt pos rest (Status c code)

/-- The loop `for ; c.index < s; c.index++ { c.handlers[c.index](c) }`. -/
def forLoop (nxt : Context → Res) (s : Int) : Nat → Context → Res
  | 0, c =>
      if c.index < s then
        match handlerAt c with
        | none => ⟨c, Outcome.panicked⟩
        | some _ => ⟨c, Outcome.timeout⟩
      else ⟨c, Outcome.ok⟩
  | fuel + 1, c =>
      if c.index < s then
        match handlerAt c with
        | none => ⟨c, Outcome.panicked⟩
        | some h =>
          let r := runBody nxt c.index h (emit c (Event.enter c.index))
          match r.out with
          | Outcome.ok => forLoop nxt s fuel (setIndex r.c (int8 (r.c.index + 1)))
          | _ => r
      else ⟨c, Outcome.ok⟩

/-- The method `Context.Next`. -/
def Next : Nat → Context → Res
  | 0, c => ⟨c, Outcome.timeout⟩
  | fuel + 1, c =>
      let c1 := setIndex c (int8 (c.index + 1))
      forLoop (Next fuel) (int8 (c1.handlers.length : Int)) fuel c1

/-- A fresh context carrying the chain `hs`. -/
def fresh (hs : List HandlerFunc) : Context :=
  { newContext "" "" with handlers := hs }

/-- The slots invoked, in order. -/
def enters : List Event → List Int
  | [] => []
  | Event.enter i :: t => i :: enters t
  | _ :: t => enters t

/-- The markers emitted, in order. -/
def logs : List Event → List Nat
  | [] => []
  | Event.log n :: t => n :: logs t
  | _ :: t => logs t

/-! ## Data model of `fgee.go` -/

/-- The struct `RouterGroup`.  The Go field `prefix` is called `pfx` (the Go
name is a reserved word); `parent` and `engine` are pointers, held as
addresses into the heap. -/
structure RouterGroup where
  pfx : String
  middlewares : List HandlerFunc
  parent : Option Nat
  engine : Nat
  deriving DecidableEq, Repr

/-- One call `router.addRoute(method, pattern, handler)`. -/
structure Registration where
  method : String
  pattern : String
  handler : HandlerFunc
  deriving DecidableEq, Repr

/-- The struct `Engine`: `root` is the embedded `*RouterGroup`, `groups` the
slice of group pointers, and `router` the shared router, held as the
sequence of `addRoute` calls it has received (the router type itself is
declared outside these sources).  The template and server fields play no
part in registration and dispatch and are left out. -/
structure Engine where
  root : Nat
  router : List Registration
  groups : List Nat
  deriving DecidableEq, Repr

/-- The heap: the allocated `RouterGroup` and `Engine` objects, by address. -/
structure Heap where
  groupObjs : List RouterGroup
  engineObjs : List Engine
  deriving DecidableEq, Repr

/-- The constructor `New`: allocates an engine and its root group. -/
def New (h : Heap) : Heap × Nat :=
  let e := h.engineObjs.length
  let g := h.groupObjs.length
  ({ groupObjs := h.groupObjs ++ [{ pfx := "", middlewares := [], parent := none, engine := e }],
     engineObjs := h.engineObjs ++ [{ root := g, router := [], groups := [g] }] }, e)

/-- The method `RouterGroup.Group`; `none` is a nil dereference. -/
def Group (h : Heap) (group : Nat) (pre : String) : Option (Heap × Nat) :=
  match h.groupObjs[group]? with
  | none => none
  | some g =>
    match h.engineObjs[g.engine]? with
    | none => none
    | some eng =>
      let newGroup := h.groupObjs.length
      some ({ groupObjs := h.groupObjs ++
                [{ pfx := g.pfx ++ pre, middlewares := [], parent := some group,
                   engine := g.engine }],
              engineObjs := h.engineObjs.set g.engine
                { eng with groups := eng.groups ++ [newGroup] } }, newGroup)

/-- The method `RouterGroup.Use`. -/
def Use (h : Heap) (group : Nat) (middlewares : List HandlerFunc) : Option Heap :=
  match h.groupObjs[group]? with
  | none => none
  | some g =>
    some { h with groupObjs := h.groupObjs.set group
                    { g with middlewares := g.middlewares ++ middlewares } }

/-- The method `RouterGroup.addRoute`. -/
def addRoute (h : Heap) (group : Nat) (method comp : String) (handler : HandlerFunc) :
    Option Heap :=
  match h.groupObjs[group]? with
  | none => none
  | some g =>
    match h.engineObjs[g.engine]? with
    | none => none
    | some eng =>
      let pattern := g.pfx ++ comp
      some { h with engineObjs := h.engineObjs.set g.engine
                      { eng with router := eng.router ++ [⟨method, pattern, handler⟩] } }

/-- The constant `fasthttp.MethodGet` of the HTTP library. -/
def MethodGet : String := "GET"

/-- The constant `fasthttp.MethodPost`. -/
def MethodPost : String := "POST"

/-- The constant `fasthttp.MethodPut`. -/
def MethodPut : String := "PUT"

/-- The constant `fasthttp.MethodDelete`. -/
def MethodDelete : String := "DELETE"

/-- The constant `fasthttp.MethodPatch`. -/
def MethodPatch : String := "PATCH"

/-- The constant `fasthttp.MethodHead`. -/
def MethodHead : String := "HEAD"

/-- The constant `fasthttp.MethodOptions`. -/
def MethodOptions : String := "OPTIONS"

/-- The constant `fasthttp.MethodTrace`. -/
def MethodTrace : String := "TRACE"

/-- The method `RouterGroup.GET`. -/
def GET (h : Heap) (group : Nat) (pattern : String) (handler : HandlerFunc) : Option Heap :=
  addRoute h group MethodGet pattern handler

/-- The method `RouterGroup.POST`. -/
def POST (h : Heap) (group : Nat) (pattern : String) (handler : HandlerFunc) : Option Heap :=
  addRoute h group MethodPost pattern handler

/-- The method `RouterGroup.PUT`. -/
def PUT (h : Heap) (group : Nat) (pattern : String) (handler : HandlerFunc) : Option Heap :=
  addRoute h group MethodPut pattern handler

/-- The method `RouterGroup.DELETE`. -/
def DELETE (h : Heap) (group : Nat) (pattern : String) (handler : HandlerFunc) : Option Heap :=
  addRoute h group MethodDelete pattern handler

/-- The method `RouterGroup.PATCH`. -/
def PATCH (h : Heap) (group : Nat) (pattern : String) (handler : HandlerFunc) : Option Heap :=
  addRoute h group MethodPatch pattern handler

/-- The method `RouterGroup.HEAD`. -/
def HEAD (h : Heap) (group : Nat) (pattern : String) (handler : HandlerFunc) : Option Heap :=
  addRoute h group MethodHead pattern handler

/-- The method `RouterGroup.OPTIONS`. -/
def OPTIONS (h : Heap) (group : Nat) (pattern : String) (handler : HandlerFunc) : Option Heap :=
  addRoute h group MethodOptions pattern handler

/-- The method `RouterGroup.TRACE`. -/
def TRACE (h : Heap) (group : Nat) (pattern : String) (handler : HandlerFunc) : Option Heap :=
  addRoute h group MethodTrace pattern handler

/-- The method `RouterGroup.Any`. -/
def Any (h : Heap) (group : Nat) (pattern : String) (handler : HandlerFunc) : Option Heap := do
  let h1 ← GET h group pattern handler
  let h2 ← POST h1 group pattern handler
  let h3 ← PUT h2 group pattern handler
  let h4 ← DELETE h3 group pattern handler
  let h5 ← PATCH h4 group pattern handler
  let h6 ← HEAD h5 group pattern handler
  let h7 ← OPTIONS h6 group pattern handler
  TRACE h7 group pattern handler

/-- Go's `strings.HasPrefix(s, p)`: `len(s) >= len(p) && s[:len(p)] == p`. -/
def HasPrefix (s p : String) : Bool :=
  decide (p.data.length ≤ s.data.length) && (s.data.take p.data.length == p.data)

/-- The range loop of `Engine.ServeHTTP` over the group pointers, from the
slice `middlewares` built so far. -/
def collectMiddlewares (h : Heap) (path : String) :
    List Nat → List HandlerFunc → Option (List HandlerFunc)
  | [], middlewares => some middlewares
  | group :: rest, middlewares =>
    match h.groupObjs[group]? with
    | none => none
    | some g =>
      if HasPrefix path g.pfx then collectMiddlewares h path rest (middlewares ++ g.middlewares)
      else collectMiddlewares h path rest middlewares

/-- The method `Engine.ServeHTTP`, up to the call `engine.router.handle(c)`:
the result is the context handed to the router. -/
def ServeHTTP (h : Heap) (engine : Nat) (path method : String) : Option Context :=
  match h.engineObjs[engine]? with
  | none => none
  | some eng =>
    match collectMiddlewares h path eng.groups [] with
    | none => none
    | some middlewares =>
      some { newContext path method with handlers := middlewares, engine := some engine }

/-- The empty heap. -/
def emptyHeap : Heap := { groupObjs := [], engineObjs := [] }

/-- The middleware list the dispatch rule prescribes for path `p`: the
concatenation, in list order, of the middleware of the groups whose prefix is
a textual prefix of `p`. -/
def specMiddlewares (gs : List RouterGroup) (p : String) : List HandlerFunc :=
  ((gs.filter (fun g => decide (g.pfx.data <+: p.data))).map RouterGroup.middlewares).flatten

/-- Storing a list of key/value pairs with `Set`, one after the other. -/
def setMany (c : Context) (kvs : List (String × Value)) : Context :=
  kvs.foldl (fun c kv => Set c kv.1 kv.2) c

/-- Whether an operation is a call of `c.Next()`. -/
def Op.isNext : Op → Bool
  | Op.next => true
  | _ => false

/-- Whether an operation is a call of `c.Fail(..)`. -/
def Op.isFail : Op → Bool
  | Op.fail _ _ => true
  | _ => false

/-- How many times a handler body calls `c.Next()`. -/
def nextCalls (h : HandlerFunc) : Nat := h.countP Op.isNext

/-- Whether a handler body calls `c.Next()` at all. -/
def callsNext (h : HandlerFunc) : Bool := decide (0 < nextCalls h)

/-- Whether a handler body calls `c.Fail(..)`. -/
def callsFail (h : HandlerFunc) : Bool := h.any Op.isFail

/-- Whether a handler body calls `c.Fail(..)` before its first call of
`c.Next()` (or calls `Fail` and never `Next`). -/
def failsBeforeNext : List Op → Bool
  | [] => false
  | Op.next :: _ => false
  | Op.fail _ _ :: _ => true
  | _ :: rest => failsBeforeNext rest

/-- A handler that calls `Next` at most once and never calls `Fail`. -/
def tame (h : HandlerFunc) : Bool := decide (nextCalls h ≤ 1) && !callsFail h

/-- The events of a body in slot `pos` that never calls `Fail`, when its first
call of `Next` contributes the events `inner` before control comes back; a
later call of `Next` finds no slot left and contributes nothing. -/
def bodyEvents (pos : Int) (inner : List Event) : List Op → List Event
  | [] => []
  | Op.log tag :: rest => Event.log tag :: bodyEvents pos inner rest
  | Op.next :: rest => inner ++ Event.resume pos :: bodyEvents pos [] rest
  | _ :: rest => bodyEvents pos inner rest

/-- The number of calls of `Next` written in the bodies of a chain. -/
def totalNext (hs : List HandlerFunc) : Nat := (hs.map nextCalls).sum

/-- The trace prescribed for the handlers `hs` sitting in slots `k, k+1, ..`:
a handler that calls `Next` wraps the trace of all later handlers, a handler
that does not is followed by it. -/
def expTrace : Nat → List HandlerFunc → List Event
  | _, [] => []
  | k, h :: rest =>
    if callsNext h then Event.enter k :: bodyEvents k (expTrace (k + 1) rest) h
    else Event.enter k :: (bodyEvents k [] h ++ expTrace (k + 1) rest)

/-- What a terminated piece of a run did to the context: it returned, added
the events `T`, left the cursor at `f`, kept the chain, and wrote only cursor
values between `0` and `B`. -/
def Step (c : Context) (r : Res) (T : List Event) (f B : Int) : Prop :=
  r.out = Outcome.ok ∧ r.c.trace = c.trace ++ T ∧ r.c.index = f ∧
    r.c.handlers = c.handlers ∧
    ∀ v ∈ r.c.cursorLog, v ∈ c.cursorLog ∨ (0 ≤ v ∧ v ≤ B)

/-- The handler `[log a, next, log b]`: record `a`, call `Next`, record `b`. -/
def wrapper (ab : Nat × Nat) : HandlerFunc := [Op.log ab.1, Op.next, Op.log ab.2]

/-- The value `s` that `Next` computes: `int8(len(c.handlers))`. -/
def cap (c : Context) : Int := int8 (c.handlers.length : Int)

/-- A context whose cursor is an `int8` value at or past the last slot: from
here a call of `Next` finds no slot left to run. -/
def Quiet (c : Context) : Prop :=
  -128 ≤ c.index ∧ c.index ≤ 127 ∧ cap c - 1 ≤ c.index

/-- A piece of a run that kept the chain, invoked exactly the slots `E`, did
not run out of fuel, and, when it returned, left the context quiet. -/
def Ran (c : Context) (r : Res) (E : List Int) : Prop :=
  r.c.handlers = c.handlers ∧ enters r.c.trace = enters c.trace ++ E ∧
    r.out ≠ Outcome.timeout ∧ (r.out = Outcome.ok → Quiet r.c)

/-- A piece of a run that kept the chain, did not run out of fuel and, when
it returned, left the context quiet. -/
def Halts (c : Context) (r : Res) : Prop :=
  r.c.handlers = c.handlers ∧ r.out ≠ Outcome.timeout ∧ (r.out = Outcome.ok → Quiet r.c)

/-- A handler body that kept the chain, did not run out of fuel and, when it
returned, left the context quiet or the cursor where it was. -/
def HaltsBody (c : Context) (r : Res) : Prop :=
  r.c.handlers = c.handlers ∧ r.out ≠ Outcome.timeout ∧
    (r.out = Outcome.ok → Quiet r.c ∨ r.c.index = c.index)

/-- Whether an event is a call of `Fail`. -/
def Event.isFailed : Event → Bool
  | Event.failed _ => true
  | _ => false

/-- Whether an event is the invocation of a slot. -/
def Event.isEnter : Event → Bool
  | Event.enter _ => true
  | _ => false

/-- Whether no slot is invoked after the first call of `Fail` in a trace. -/
def quietAfterFail : List Event → Bool
  | [] => true
  | e :: t => if e.isFailed then t.all (fun x => !x.isEnter) else quietAfterFail t

/-- The registration sequence of the nested-group scenario on a new engine:
`G := root.Group("/g")`, `G.Use(M1)`, `G1 := G.Group("/g1")`, `G1.Use(M2)`.
The result is the heap and the engine's address. -/
def nestedSetup (M1 M2 : HandlerFunc) : Option (Heap × Nat) :=
  match (New emptyHeap).1.engineObjs[(New emptyHeap).2]? with
  | none => none
  | some eng =>
    match Group (New emptyHeap).1 eng.root "/g" with
    | none => none
    | some (h1, G) =>
      match Use h1 G [M1] with
      | none => none
      | some h2 =>
        match Group h2 G "/g1" with
        | none => none
        | some (h3, G1) =>
          match Use h3 G1 [M2] with
          | none => none
          | some h4 => some (h4, (New emptyHeap).2)

/-- Whether `Fail` was called in a trace. -/
def hasFail (t : List Event) : Bool := t.any Event.isFailed

/-- The invariant of a run: no slot was invoked after a call of `Fail`, the
cursor is an `int8` value, and once `Fail` was called the cursor is at or
past `int8(len(c.handlers))`. -/
def Sealed (c : Context) : Prop :=
  quietAfterFail c.trace = true ∧ -128 ≤ c.index ∧ c.index ≤ 127 ∧
    (hasFail c.trace = true → cap c ≤ c.index)

/-- The invariant at the head of the loop of `Next`, right after the cursor
was incremented: the increment may have wrapped to `-128`. -/
def SealedLoop (c : Context) : Prop :=
  quietAfterFail c.trace = true ∧ -128 ≤ c.index ∧ c.index ≤ 127 ∧
    (hasFail c.trace = true → cap c ≤ c.index ∨ c.index = -128)

/-- What a piece of a run guarantees when started from a sealed context. -/
def StaysSealed (c : Context) (r : Res) : Prop :=
  r.c.handlers = c.handlers ∧ quietAfterFail r.c.trace = true ∧
    (r.out = Outcome.ok → Sealed r.c)

/-- A small heap used for concrete instances: one engine whose groups are
the root, `/g` with one middleware and `/g/g1` with one middleware. -/
def demoHeap : Heap :=
  { groupObjs := [{ pfx := "", middlewares := [], parent := none, engine := 0 },
                  { pfx := "/g", middlewares := [[Op.log 1, Op.next]], parent := some 0,
                    engine := 0 },
                  { pfx := "/g/g1", middlewares := [[Op.next, Op.log 2]], parent := some 1,
                    engine := 0 }],
    engineObjs := [{ root := 0, router := [], groups := [0, 1, 2] }] }

/-! ## Cursor arithmetic, field projections and `Fail` -/

theorem int8_of_range (x : Int) (h1 : -128 ≤ x) (h2 : x ≤ 127) : int8 x = x := by
  unfold int8
  omega

@[simp]
theorem emit_trace (c : Context) (e : Event) : (emit c e).trace = c.trace ++ [e] := rfl

@[simp]
theorem emit_index (c : Context) (e : Event) : (emit c e).index = c.index := rfl

@[simp]
theorem emit_handlers (c : Context) (e : Event) : (emit c e).handlers = c.handlers := rfl

@[simp]
theorem emit_cursorLog (c : Context) (e : Event) : (emit c e).cursorLog = c.cursorLog := rfl

@[simp]
theorem setIndex_trace (c : Context) (v : Int) : (setIndex c v).trace = c.trace := rfl

@[simp]
theorem setIndex_index (c : Context) (v : Int) : (setIndex c v).index = v := rfl

@[simp]
theorem setIndex_handlers (c : Context) (v : Int) : (setIndex c v).handlers = c.handlers := rfl

@[simp]
theorem setIndex_cursorLog (c : Context) (v : Int) : (setIndex c v).cursorLog = c.cursorLog ++ [v] := rfl

@[simp]
theorem Status_trace (c : Context) (code : Int) : (Status c code).trace = c.trace := rfl

@[simp]
theorem Status_index (c : Context) (code : Int) : (Status c code).index = c.index := rfl

@[simp]
theorem Status_handlers (c : Context) (code : Int) : (Status c code).handlers = c.handlers := rfl

@[simp]
theorem Status_cursorLog (c : Context) (code : Int) : (Status c code).cursorLog = c.cursorLog := rfl

@[simp]
theorem Set_trace (c : Context) (k : String) (val : Value) : (Set c k val).trace = c.trace := rfl

@[simp]
theorem Set_index (c : Context) (k : String) (val : Value) : (Set c k val).index = c.index := rfl

@[simp]
theorem Set_handlers (c : Context) (k : String) (val : Value) : (Set c k val).handlers = c.handlers := rfl

@[simp]
theorem Set_cursorLog (c : Context) (k : String) (val : Value) : (Set c k val).cursorLog = c.cursorLog := rfl

theorem int8_bounds (x : Int) : -128 ≤ int8 x ∧ int8 x ≤ 127 := by
  unfold int8
  omega

theorem jsonWith_spec :
    ∀ (ws : List Bool) (c : Context) (code : Int) (obj : String),
      (jsonWith ws c code obj).handlers = c.handlers ∧
      ((jsonWith ws c code obj).index = c.index ∨
        (jsonWith ws c code obj).index = cap c) ∧
      (∃ F, (jsonWith ws c code obj).trace = c.trace ++ F ∧ ∀ e ∈ F, e.isFailed = true) ∧
      (jsonWith ws c code obj).Keys = c.Keys := by
  intro ws
  induction ws with
  | nil =>
    intro c code obj
    exact ⟨rfl, Or.inl rfl, ⟨[], by simp [jsonWith, Status], by simp⟩, rfl⟩
  | cons w ws ih =>
    intro c code obj
    cases w with
    | true => exact ⟨rfl, Or.inl rfl, ⟨[], by simp [jsonWith, Status], by simp⟩, rfl⟩
    | false =>
      obtain ⟨h1, h2, ⟨F, h3, h4⟩, h5⟩ := ih
        (emit (setIndex { Status c code with writes := ws }
          (int8 (c.handlers.length : Int))) (Event.failed 500)) 500 "Internal Server Error"
      refine ⟨by rw [jsonWith, h1]; rfl, Or.inr ?_, ⟨Event.failed 500 :: F, ?_, ?_⟩, ?_⟩
      · rw [jsonWith]
        rcases h2 with h2 | h2
        · rw [h2]
          rfl
        · rw [h2]
          rfl
      · rw [jsonWith, h3]
        simp [Status]
      · intro e he
        rcases List.mem_cons.1 he with he | he
        · rw [he]
          rfl
        · exact h4 e he
      · rw [jsonWith, h5]
        rfl

theorem Fail_spec (c : Context) (code : Int) (err : String) :
    (Fail c code err).handlers = c.handlers ∧
    (Fail c code err).index = cap c ∧
    (∃ F, (Fail c code err).trace = c.trace ++ Event.failed code :: F ∧
      ∀ e ∈ F, e.isFailed = true) ∧
    (Fail c code err).Keys = c.Keys := by
  obtain ⟨h1, h2, ⟨F, h3, h4⟩, h5⟩ := jsonWith_spec c.writes
    (emit (setIndex c (int8 (c.handlers.length : Int))) (Event.failed code)) code err
  refine ⟨h1, ?_, ⟨F, ?_, h4⟩, h5⟩
  · rcases h2 with h2 | h2
    · exact h2
    · exact h2
  · have : (Fail c code err).trace = (jsonWith c.writes
        (emit (setIndex c (int8 (c.handlers.length : Int))) (Event.failed code)) code err).trace :=
      rfl
    rw [this, h3]
    simp

/-! ## Engine and route groups -/

theorem hasPrefix_iff (s p : String) : HasPrefix s p = true ↔ p.data <+: s.data := by
  unfold HasPrefix
  rw [List.prefix_iff_eq_take]
  simp only [Bool.and_eq_true, decide_eq_true_eq, beq_iff_eq]
  constructor
  · rintro ⟨_, h⟩
    exact h.symm
  · intro h
    refine ⟨?_, h.symm⟩
    have h2 := congrArg List.length h
    rw [List.length_take] at h2
    omega

theorem specMiddlewares_cons (g : RouterGroup) (gs : List RouterGroup) (p : String) :
    specMiddlewares (g :: gs) p =
      if HasPrefix p g.pfx then g.middlewares ++ specMiddlewares gs p
      else specMiddlewares gs p := by
  by_cases hp : HasPrefix p g.pfx = true
  · have := (hasPrefix_iff p g.pfx).1 hp
    simp [specMiddlewares, List.filter_cons, hp, this]
  · have h2 : ¬ (g.pfx.data <+: p.data) := fun h => hp ((hasPrefix_iff p g.pfx).2 h)
    simp [specMiddlewares, List.filter_cons, hp, h2]

theorem collectMiddlewares_eq (h : Heap) (path : String) :
    ∀ (refs : List Nat) (gs : List RouterGroup) (acc : List HandlerFunc),
      refs.map (fun r => h.groupObjs[r]?) = gs.map some →
      collectMiddlewares h path refs acc = some (acc ++ specMiddlewares gs path) := by
  intro refs
  induction refs with
  | nil =>
    intro gs acc hr
    cases gs with
    | nil => simp [collectMiddlewares, specMiddlewares]
    | cons g gs => simp at hr
  | cons r refs ih =>
    intro gs acc hr
    cases gs with
    | nil => simp at hr
    | cons g gs =>
      simp only [List.map_cons, List.cons.injEq] at hr
      obtain ⟨hg, hrest⟩ := hr
      rw [collectMiddlewares, hg, specMiddlewares_cons]
      by_cases hp : HasPrefix path g.pfx = true
      · simp only [hp, if_true]
        rw [ih gs _ hrest, List.append_assoc]
      · simp only [hp]
        exact ih gs _ hrest

/-- C2: the middleware list `Engine.ServeHTTP` puts in the request context is
the concatenation, over `engine.groups` in list order, of the middleware of
exactly those groups whose prefix is a textual prefix of the request path. -/
theorem C2_serveHTTP_middlewares (h : Heap) (engine : Nat) (eng : Engine)
    (gs : List RouterGroup) (path method : String)
    (he : h.engineObjs[engine]? = some eng)
    (hg : eng.groups.map (fun r => h.groupObjs[r]?) = gs.map some) :
    ∃ c, ServeHTTP h engine path method = some c ∧
      c.handlers = specMiddlewares gs path ∧ c.index = -1 ∧ c.Path = path ∧
      c.engine = some engine := by
  refine ⟨{ newContext path method with
            handlers := specMiddlewares gs path, engine := some engine }, ?_, rfl, rfl, rfl, rfl⟩
  unfold ServeHTTP
  rw [he]
  simp only
  rw [collectMiddlewares_eq h path eng.groups gs [] hg]
  simp

/-- Witness of C2: on the demo heap the path `/g/x` collects the middleware of
the root group and of `/g`, and not that of `/g/g1`. -/
theorem C2_serveHTTP_middlewares_witness :
    (∃ c, ServeHTTP demoHeap 0 "/g/x" "GET" = some c ∧
      c.handlers = specMiddlewares demoHeap.groupObjs "/g/x" ∧ c.index = -1 ∧
      c.Path = "/g/x" ∧ c.engine = some 0) ∧
    specMiddlewares demoHeap.groupObjs "/g/x" = [[Op.log 1, Op.next]] :=
  ⟨C2_serveHTTP_middlewares demoHeap 0 { root := 0, router := [], groups := [0, 1, 2] }
    demoHeap.groupObjs "/g/x" "GET" rfl rfl, by decide⟩

/-- C6: `g.Group(pre)` allocates one new group with prefix `g.prefix + pre`,
parent `g`, the engine of `g` and no middleware, appends its pointer at the end
of that engine's group list, and leaves every other group and engine as it
was. -/
theorem C6_group_registers (h : Heap) (group : Nat) (g : RouterGroup) (eng : Engine)
    (pre : String)
    (hg : h.groupObjs[group]? = some g) (he : h.engineObjs[g.engine]? = some eng) :
    ∃ h' r, Group h group pre = some (h', r) ∧
      h.groupObjs[r]? = none ∧
      h'.groupObjs[r]? = some { pfx := g.pfx ++ pre, middlewares := [],
                                parent := some group, engine := g.engine } ∧
      h'.engineObjs[g.engine]? = some { eng with groups := eng.groups ++ [r] } ∧
      (∀ r', r' ≠ r → h'.groupObjs[r']? = h.groupObjs[r']?) ∧
      (∀ e', e' ≠ g.engine → h'.engineObjs[e']? = h.engineObjs[e']?) := by
  have hlt : g.engine < h.engineObjs.length := by
    rcases List.getElem?_eq_some.1 he with ⟨hl, _⟩
    exact hl
  simp only [Group, hg, he]
  refine ⟨_, _, rfl, ?_, ?_, ?_, ?_, ?_⟩
  · simp
  · simp
  · simp [hlt]
  · intro r' hr'
    simp only
    rw [List.getElem?_append]
    by_cases hlt' : r' < h.groupObjs.length
    · simp [hlt']
    · have h1 : h.groupObjs.length ≤ r' := by omega
      have h2 : r' - h.groupObjs.length ≠ 0 := by omega
      rw [if_neg hlt', List.getElem?_eq_none h1]
      cases hd : r' - h.groupObjs.length with
      | zero => exact absurd hd h2
      | succ n => simp
  · intro e' he'
    simp only
    rw [List.getElem?_set_ne (Ne.symm he')]

/-- Witness of C6: a sub-group of `/g` on the demo heap. -/
theorem C6_group_registers_witness :
    ∃ h' r, Group demoHeap 1 "/v2" = some (h', r) ∧
      h'.groupObjs[r]? = some { pfx := "/g" ++ "/v2", middlewares := [],
                                parent := some 1, engine := 0 } ∧
      h'.engineObjs[0]? = some { root := 0, router := [], groups := [0, 1, 2] ++ [r] } := by
  obtain ⟨h', r, a, _, b, c, _⟩ := C6_group_registers demoHeap 1
    { pfx := "/g", middlewares := [[Op.log 1, Op.next]], parent := some 0, engine := 0 }
    { root := 0, router := [], groups := [0, 1, 2] } "/v2" rfl rfl
  exact ⟨h', r, a, b, c⟩

/-- C7: `g.Use(ms...)` replaces the middleware list of `g` by the old list
followed by `ms`, keeps the prefix, parent and engine of `g`, and changes no
other group and no engine (so no group list either). -/
theorem C7_use_frame (h : Heap) (group : Nat) (g : RouterGroup) (ms : List HandlerFunc)
    (hg : h.groupObjs[group]? = some g) :
    ∃ h', Use h group ms = some h' ∧
      h'.groupObjs[group]? = some { g with middlewares := g.middlewares ++ ms } ∧
      (∀ g', g' ≠ group → h'.groupObjs[g']? = h.groupObjs[g']?) ∧
      h'.groupObjs.length = h.groupObjs.length ∧
      h'.engineObjs = h.engineObjs := by
  have hlt : group < h.groupObjs.length := by
    rcases List.getElem?_eq_some.1 hg with ⟨hl, _⟩
    exact hl
  simp only [Use, hg]
  refine ⟨_, rfl, ?_, ?_, ?_, ?_⟩
  · simp [hlt]
  · intro g' hg'
    simp only
    rw [List.getElem?_set_ne (Ne.symm hg')]
  · simp
  · rfl

/-- Witness of C7: one more middleware for `/g` on the demo heap. -/
theorem C7_use_frame_witness :
    ∃ h', Use demoHeap 1 [[Op.log 7]] = some h' ∧
      h'.groupObjs[1]? = some { pfx := "/g", middlewares := [[Op.log 1, Op.next]] ++ [[Op.log 7]],
                                parent := some 0, engine := 0 } ∧
      h'.groupObjs[2]? = demoHeap.groupObjs[2]? ∧
      h'.engineObjs = demoHeap.engineObjs := by
  obtain ⟨h', a, b, c, _, d⟩ := C7_use_frame demoHeap 1
    { pfx := "/g", middlewares := [[Op.log 1, Op.next]], parent := some 0, engine := 0 }
    [[Op.log 7]] rfl
  exact ⟨h', a, b, c 2 (by decide), d⟩

theorem addRoute_eq (h : Heap) (group : Nat) (g : RouterGroup) (eng : Engine)
    (method comp : String) (handler : HandlerFunc)
    (hg : h.groupObjs[group]? = some g) (he : h.engineObjs[g.engine]? = some eng) :
    ∃ h', addRoute h group method comp handler = some h' ∧
      h'.groupObjs = h.groupObjs ∧
      h'.engineObjs.length = h.engineObjs.length ∧
      h'.engineObjs[g.engine]? =
        some { eng with router := eng.router ++ [⟨method, g.pfx ++ comp, handler⟩] } ∧
      (∀ e', e' ≠ g.engine → h'.engineObjs[e']? = h.engineObjs[e']?) := by
  have hlt : g.engine < h.engineObjs.length := by
    rcases List.getElem?_eq_some.1 he with ⟨hl, _⟩
    exact hl
  simp only [addRoute, hg, he]
  refine ⟨_, rfl, ?_, ?_, ?_, ?_⟩
  · rfl
  · simp
  · simp [hlt]
  · intro e' he'
    simp only
    rw [List.getElem?_set_ne (Ne.symm he')]

/-- C8: `g.Any(pat, hd)` hands the shared router exactly eight registrations,
for GET, POST, PUT, DELETE, PATCH, HEAD, OPTIONS, TRACE in that order, each
with pattern `g.prefix + pat` and handler `hd`, and touches nothing else; each
single-verb helper is the one `addRoute` registration for its method. -/
theorem C8_any_registers (h : Heap) (group : Nat) (g : RouterGroup) (eng : Engine)
    (pat : String) (hd : HandlerFunc)
    (hg : h.groupObjs[group]? = some g) (he : h.engineObjs[g.engine]? = some eng) :
    (∃ h', Any h group pat hd = some h' ∧
      h'.groupObjs = h.groupObjs ∧
      h'.engineObjs[g.engine]? = some { eng with router := eng.router ++
        [⟨"GET", g.pfx ++ pat, hd⟩, ⟨"POST", g.pfx ++ pat, hd⟩, ⟨"PUT", g.pfx ++ pat, hd⟩,
         ⟨"DELETE", g.pfx ++ pat, hd⟩, ⟨"PATCH", g.pfx ++ pat, hd⟩, ⟨"HEAD", g.pfx ++ pat, hd⟩,
         ⟨"OPTIONS", g.pfx ++ pat, hd⟩, ⟨"TRACE", g.pfx ++ pat, hd⟩] } ∧
      (∀ e', e' ≠ g.engine → h'.engineObjs[e']? = h.engineObjs[e']?)) ∧
    (∃ h', GET h group pat hd = some h' ∧ h'.groupObjs = h.groupObjs ∧
      h'.engineObjs[g.engine]? =
        some { eng with router := eng.router ++ [⟨"GET", g.pfx ++ pat, hd⟩] }) ∧
    GET h group pat hd = addRoute h group "GET" pat hd ∧
    POST h group pat hd = addRoute h group "POST" pat hd ∧
    PUT h group pat hd = addRoute h group "PUT" pat hd ∧
    DELETE h group pat hd = addRoute h group "DELETE" pat hd ∧
    PATCH h group pat hd = addRoute h group "PATCH" pat hd ∧
    HEAD h group pat hd = addRoute h group "HEAD" pat hd ∧
    OPTIONS h group pat hd = addRoute h group "OPTIONS" pat hd ∧
    TRACE h group pat hd = addRoute h group "TRACE" pat hd := by
  refine ⟨?_, ?_, rfl, rfl, rfl, rfl, rfl, rfl, rfl, rfl⟩
  · obtain ⟨h1, e1, g1, _, r1, f1⟩ := addRoute_eq h group g eng MethodGet pat hd hg he
    obtain ⟨h2, e2, g2, _, r2, f2⟩ :=
      addRoute_eq h1 group g _ MethodPost pat hd (g1 ▸ hg) r1
    obtain ⟨h3, e3, g3, _, r3, f3⟩ :=
      addRoute_eq h2 group g _ MethodPut pat hd (g2 ▸ g1 ▸ hg) r2
    obtain ⟨h4, e4, g4, _, r4, f4⟩ :=
      addRoute_eq h3 group g _ MethodDelete pat hd (g3 ▸ g2 ▸ g1 ▸ hg) r3
    obtain ⟨h5, e5, g5, _, r5, f5⟩ :=
      addRoute_eq h4 group g _ MethodPatch pat hd (g4 ▸ g3 ▸ g2 ▸ g1 ▸ hg) r4
    obtain ⟨h6, e6, g6, _, r6, f6⟩ :=
      addRoute_eq h5 group g _ MethodHead pat hd (g5 ▸ g4 ▸ g3 ▸ g2 ▸ g1 ▸ hg) r5
    obtain ⟨h7, e7, g7, _, r7, f7⟩ :=
      addRoute_eq h6 group g _ MethodOptions pat hd (g6 ▸ g5 ▸ g4 ▸ g3 ▸ g2 ▸ g1 ▸ hg) r6
    obtain ⟨h8, e8, g8, _, r8, f8⟩ :=
      addRoute_eq h7 group g _ MethodTrace pat hd
        (g7 ▸ g6 ▸ g5 ▸ g4 ▸ g3 ▸ g2 ▸ g1 ▸ hg) r7
    refine ⟨h8, ?_, ?_, ?_, ?_⟩
    · simp only [Any, GET, POST, PUT, DELETE, PATCH, HEAD, OPTIONS, TRACE, e1, e2, e3, e4,
        e5, e6, e7, e8, Option.bind_eq_bind, Option.some_bind]
    · rw [g8, g7, g6, g5, g4, g3, g2, g1]
    · rw [r8]
      simp [MethodGet, MethodPost, MethodPut, MethodDelete, MethodPatch, MethodHead,
        MethodOptions, MethodTrace]
    · intro e' he'
      rw [f8 e' he', f7 e' he', f6 e' he', f5 e' he', f4 e' he', f3 e' he', f2 e' he',
        f1 e' he']
  · obtain ⟨h1, e1, g1, _, r1, _⟩ := addRoute_eq h group g eng MethodGet pat hd hg he
    exact ⟨h1, e1, g1, r1⟩

/-- Witness of C8: `Any` on the group `/g` of the demo heap. -/
theorem C8_any_registers_witness :
    ∃ h', Any demoHeap 1 "/p" [Op.log 5] = some h' ∧
      h'.groupObjs = demoHeap.groupObjs ∧
      h'.engineObjs[0]? = some { root := 0, groups := [0, 1, 2], router := [] ++
        [⟨"GET", "/g" ++ "/p", [Op.log 5]⟩, ⟨"POST", "/g" ++ "/p", [Op.log 5]⟩,
         ⟨"PUT", "/g" ++ "/p", [Op.log 5]⟩, ⟨"DELETE", "/g" ++ "/p", [Op.log 5]⟩,
         ⟨"PATCH", "/g" ++ "/p", [Op.log 5]⟩, ⟨"HEAD", "/g" ++ "/p", [Op.log 5]⟩,
         ⟨"OPTIONS", "/g" ++ "/p", [Op.log 5]⟩, ⟨"TRACE", "/g" ++ "/p", [Op.log 5]⟩] } := by
  obtain ⟨h', a, b, c, _⟩ := (C8_any_registers demoHeap 1
    { pfx := "/g", middlewares := [[Op.log 1, Op.next]], parent := some 0, engine := 0 }
    { root := 0, router := [], groups := [0, 1, 2] } "/p" [Op.log 5] rfl rfl).1
  exact ⟨h', a, b, c⟩

/-! ## The per-request key store -/

theorem mapLookup_insert_self (k : String) (v : Value) :
    ∀ m : List (String × Value), mapLookup k (mapInsert k v m) = some v := by
  intro m
  induction m with
  | nil => simp [mapInsert, mapLookup]
  | cons kv m ih =>
    obtain ⟨k', v'⟩ := kv
    by_cases hk : k' = k
    · simp [mapInsert, mapLookup, hk]
    · simp [mapInsert, mapLookup, hk, ih]

theorem mapLookup_insert_other (k k' : String) (v : Value) (hne : k' ≠ k) :
    ∀ m : List (String × Value), mapLookup k' (mapInsert k v m) = mapLookup k' m := by
  intro m
  induction m with
  | nil => simp [mapInsert, mapLookup, Ne.symm hne]
  | cons kv m ih =>
    obtain ⟨k2, v2⟩ := kv
    by_cases hk : k2 = k
    · subst hk
      simp [mapInsert, mapLookup, Ne.symm hne]
    · by_cases hk' : k2 = k'
      · subst hk'
        simp [mapInsert, mapLookup, hne]
      · simp [mapInsert, mapLookup, hk, hk', ih]

theorem get_set_other (c : Context) (k k' : String) (v : Value) (hne : k' ≠ k) :
    (Get (Set c k v) k').2 = (Get c k').2 := by
  cases hK : c.Keys with
  | none => simp [Get, Set, hK, mapInsert, mapLookup, Ne.symm hne]
  | some m =>
    simp only [Get, Set, hK, mapLookup_insert_other k k' v hne m]
    cases mapLookup k' m <;> rfl

theorem get_setMany_other (k : String) :
    ∀ (kvs : List (String × Value)) (c : Context),
      k ∉ kvs.map Prod.fst → (Get (setMany c kvs) k).2 = (Get c k).2 := by
  intro kvs
  induction kvs with
  | nil => intro c _; rfl
  | cons kv kvs ih =>
    intro c hk
    simp only [List.map_cons, List.mem_cons, not_or] at hk
    have h1 : setMany c (kv :: kvs) = setMany (Set c kv.1 kv.2) kvs := rfl
    rw [h1, ih _ hk.2, get_set_other c kv.1 k kv.2 hk.1]

theorem get_context (c : Context) (k : String) : (Get c k).1 = c := by
  unfold Get
  cases c.Keys with
  | none => rfl
  | some m =>
    simp only
    cases mapLookup k m <;> rfl

/-- C9: the key store round trip.  A new context has a nil `Keys` map; `Get`
never changes the context, and on a nil map it gives `(nil, false)` and leaves
the map nil; after `Set(k, v)` the map exists, `Get(k)` gives `(v, true)` and
every other key reads as before; `Set` on a nil map creates it and on an
existing map updates it; a key that was never set reads `(nil, false)`; and
`Status`, `Fail` and the cursor writes leave `Keys` alone, so only `Set`
creates the map. -/
theorem C9_keys_round_trip :
    (∀ p m, (newContext p m).Keys = none) ∧
    (∀ c k, (Get c k).1 = c) ∧
    (∀ c k, c.Keys = none → (Get c k).2 = (Value.nil, false) ∧ (Get c k).1.Keys = none) ∧
    (∀ c k v, (Get (Set c k v) k).2 = (v, true)) ∧
    (∀ c k k' v, k' ≠ k → (Get (Set c k v) k').2 = (Get c k').2) ∧
    (∀ c k v, (Set c k v).Keys ≠ none ∧
      (c.Keys = none → (Set c k v).Keys = some [(k, v)]) ∧
      (∀ m, c.Keys = some m → (Set c k v).Keys = some (mapInsert k v m))) ∧
    (∀ p m kvs k, k ∉ kvs.map Prod.fst →
      (Get (setMany (newContext p m) kvs) k).2 = (Value.nil, false)) ∧
    (∀ c code err v e, (Status c code).Keys = c.Keys ∧ (setIndex c v).Keys = c.Keys ∧
      (emit c e).Keys = c.Keys ∧ (Fail c code err).Keys = c.Keys) := by
  refine ⟨fun _ _ => rfl, get_context, ?_, ?_, ?_, ?_, ?_, ?_⟩
  · intro c k hK
    refine ⟨by simp [Get, hK], ?_⟩
    rw [get_context]
    exact hK
  · intro c k v
    cases hK : c.Keys with
    | none => simp [Get, Set, hK, mapInsert, mapLookup]
    | some m => simp [Get, Set, hK, mapLookup_insert_self]
  · intro c k k' v hne
    exact get_set_other c k k' v hne
  · intro c k v
    refine ⟨by simp [Set], ?_, ?_⟩
    · intro hK
      simp [Set, hK, mapInsert]
    · intro m hK
      simp [Set, hK]
  · intro p m kvs k hk
    rw [get_setMany_other k kvs _ hk]
    rfl
  · intro c code err v e
    exact ⟨rfl, rfl, rfl, (Fail_spec c code err).2.2.2⟩

/-- Witness of C9 on a new context. -/
theorem C9_keys_round_trip_witness :
    (Get (newContext "/" "GET") "user").2 = (Value.nil, false) ∧
    (Get (newContext "/" "GET") "user").1.Keys = none ∧
    (Get (Set (newContext "/" "GET") "user" (Value.str "bob")) "user").2
      = (Value.str "bob", true) ∧
    (Get (Set (newContext "/" "GET") "user" (Value.str "bob")) "role").2
      = (Get (newContext "/" "GET") "role").2 :=
  ⟨(C9_keys_round_trip.2.2.1 (newContext "/" "GET") "user" rfl).1,
   (C9_keys_round_trip.2.2.1 (newContext "/" "GET") "user" rfl).2,
   C9_keys_round_trip.2.2.2.1 (newContext "/" "GET") "user" (Value.str "bob"),
   C9_keys_round_trip.2.2.2.2.1 (newContext "/" "GET") "user" "role" (Value.str "bob")
     (by decide)⟩

/-! ## Chains without `Fail` whose cursor does not wrap -/

theorem runBody_plain (nxt : Context → Res) (pos : Int) (inner : List Event) :
    ∀ (ops : List Op) (c : Context), nextCalls ops = 0 → callsFail ops = false →
      (runBody nxt pos ops c).out = Outcome.ok ∧
      (runBody nxt pos ops c).c.trace = c.trace ++ bodyEvents pos inner ops ∧
      (runBody nxt pos ops c).c.index = c.index ∧
      (runBody nxt pos ops c).c.handlers = c.handlers ∧
      (runBody nxt pos ops c).c.cursorLog = c.cursorLog := by
  intro ops
  induction ops with
  | nil => intro c _ _; simp [runBody, bodyEvents]
  | cons op rest ih =>
    intro c hn hf
    cases op with
    | log tag =>
      have hn' : nextCalls rest = 0 := by simpa [nextCalls, Op.isNext] using hn
      have hf' : callsFail rest = false := by simpa [callsFail, Op.isFail] using hf
      obtain ⟨h1, h2, h3, h4, h5⟩ := ih (emit c (Event.log tag)) hn' hf'
      rw [runBody]
      exact ⟨h1, by simp [h2, bodyEvents], by simp [h3], by simp [h4], by simp [h5]⟩
    | next => simp [nextCalls, Op.isNext] at hn
    | fail code err => simp [callsFail, Op.isFail] at hf
    | set key value =>
      have hn' : nextCalls rest = 0 := by simpa [nextCalls, Op.isNext] using hn
      have hf' : callsFail rest = false := by simpa [callsFail, Op.isFail] using hf
      obtain ⟨h1, h2, h3, h4, h5⟩ := ih (Set c key value) hn' hf'
      rw [runBody]
      exact ⟨h1, by simp [h2, bodyEvents], by simp [h3], by simp [h4], by simp [h5]⟩
    | status code =>
      have hn' : nextCalls rest = 0 := by simpa [nextCalls, Op.isNext] using hn
      have hf' : callsFail rest = false := by simpa [callsFail, Op.isFail] using hf
      obtain ⟨h1, h2, h3, h4, h5⟩ := ih (Status c code) hn' hf'
      rw [runBody]
      exact ⟨h1, by simp [h2, bodyEvents], by simp [h3], by simp [h4], by simp [h5]⟩

theorem forLoop_done (nxt : Context → Res) (s : Int) (j : Nat) (c : Context)
    (h : ¬ c.index < s) : forLoop nxt s j c = ⟨c, Outcome.ok⟩ := by
  cases j <;> simp [forLoop, h]

theorem Next_past (m : Nat) (c : Context) (n : Nat) (hn : c.handlers.length = n)
    (h127 : n ≤ 127) (h1 : (n : Int) ≤ c.index) (h2 : c.index + 1 ≤ 127) :
    Next (m + 1) c = ⟨setIndex c (c.index + 1), Outcome.ok⟩ := by
  rw [Next]
  simp only [setIndex_handlers, hn]
  rw [int8_of_range _ (by omega) (by omega), int8_of_range _ (by omega) (by omega)]
  exact forLoop_done _ _ _ _ (by simp; omega)

theorem runBody_after (m : Nat) (k B : Int) (n : Nat) (h127 : n ≤ 127) :
    ∀ (ops : List Op) (c : Context), callsFail ops = false → c.handlers.length = n →
      (n : Int) ≤ c.index → c.index + (nextCalls ops : Nat) ≤ 127 →
      c.index + (nextCalls ops : Nat) ≤ B →
      Step c (runBody (Next (m + 1)) k ops c) (bodyEvents k [] ops)
        (c.index + (nextCalls ops : Nat)) B := by
  intro ops
  induction ops with
  | nil =>
    intro c _ _ _ _ _
    exact ⟨rfl, by simp [runBody, bodyEvents], by simp [runBody, nextCalls], rfl,
      fun v hv => Or.inl hv⟩
  | cons op rest ih =>
    intro c hf hh h1 h2 h3
    cases op with
    | fail code err => simp [callsFail, Op.isFail] at hf
    | next =>
      have hf' : callsFail rest = false := by simpa [callsFail, Op.isFail] using hf
      have hcnt : nextCalls (Op.next :: rest) = nextCalls rest + 1 := by
        simp [nextCalls, Op.isNext]
      rw [hcnt] at h2 h3 ⊢
      push_cast at h2 h3 ⊢
      rw [runBody, Next_past m c n hh h127 h1 (by omega)]
      obtain ⟨a1, a2, a3, a4, a5⟩ := ih (emit (setIndex c (c.index + 1)) (Event.resume k)) hf'
        (by simpa using hh) (by simp; omega) (by simp; omega) (by simp; omega)
      simp only
      refine ⟨a1, by simp [a2, bodyEvents], by simp [a3]; omega, by simpa using a4, ?_⟩
      intro v hv
      rcases a5 v hv with h | h
      · simp only [emit_cursorLog, setIndex_cursorLog, List.mem_append,
          List.mem_singleton] at h
        rcases h with h | h
        · exact Or.inl h
        · right
          omega
      · exact Or.inr h
    | log tag =>
      have hf' : callsFail rest = false := by simpa [callsFail, Op.isFail] using hf
      have hcnt : nextCalls (Op.log tag :: rest) = nextCalls rest := by
        simp [nextCalls, Op.isNext]
      rw [hcnt] at h2 h3 ⊢
      obtain ⟨a1, a2, a3, a4, a5⟩ := ih (emit c (Event.log tag)) hf' (by simpa using hh)
        (by simpa using h1) (by simpa using h2) (by simpa using h3)
      rw [runBody]
      exact ⟨a1, by simp [a2, bodyEvents], by simpa using a3, by simpa using a4,
        by simpa using a5⟩
    | set key value =>
      have hf' : callsFail rest = false := by simpa [callsFail, Op.isFail] using hf
      have hcnt : nextCalls (Op.set key value :: rest) = nextCalls rest := by
        simp [nextCalls, Op.isNext]
      rw [hcnt] at h2 h3 ⊢
      obtain ⟨a1, a2, a3, a4, a5⟩ := ih (Set c key value) hf' (by simpa using hh)
        (by simpa using h1) (by simpa using h2) (by simpa using h3)
      rw [runBody]
      exact ⟨a1, by simp [a2, bodyEvents], by simpa using a3, by simpa using a4,
        by simpa using a5⟩
    | status code =>
      have hf' : callsFail rest = false := by simpa [callsFail, Op.isFail] using hf
      have hcnt : nextCalls (Op.status code :: rest) = nextCalls rest := by
        simp [nextCalls, Op.isNext]
      rw [hcnt] at h2 h3 ⊢
      obtain ⟨a1, a2, a3, a4, a5⟩ := ih (Status c code) hf' (by simpa using hh)
        (by simpa using h1) (by simpa using h2) (by simpa using h3)
      rw [runBody]
      exact ⟨a1, by simp [a2, bodyEvents], by simpa using a3, by simpa using a4,
        by simpa using a5⟩

theorem runBody_first (m : Nat) (hs : List HandlerFunc) (k f B : Int) (h127 : hs.length ≤ 127)
    (inner : List Event) (hf0 : (hs.length : Int) ≤ f)
    (hnxt : ∀ c', c'.index = k → c'.handlers = hs → Step c' (Next (m + 1) c') inner f B) :
    ∀ (ops : List Op) (c : Context), callsFail ops = false →
      c.index = k → c.handlers = hs → 0 < nextCalls ops →
      f + (nextCalls ops : Nat) - 1 ≤ 127 → f + (nextCalls ops : Nat) - 1 ≤ B →
      Step c (runBody (Next (m + 1)) k ops c) (bodyEvents k inner ops)
        (f + (nextCalls ops : Nat) - 1) B := by
  intro ops
  induction ops with
  | nil => intro c _ _ _ h0; simp [nextCalls] at h0
  | cons op rest ih =>
    intro c hf hk hh h0 h2 h3
    cases op with
    | fail code err => simp [callsFail, Op.isFail] at hf
    | next =>
      have hf' : callsFail rest = false := by simpa [callsFail, Op.isFail] using hf
      have hcnt : nextCalls (Op.next :: rest) = nextCalls rest + 1 := by
        simp [nextCalls, Op.isNext]
      rw [hcnt] at h2 h3 ⊢
      push_cast at h2 h3 ⊢
      obtain ⟨n1, n2, n3, n4, n5⟩ := hnxt c hk hh
      obtain ⟨a1, a2, a3, a4, a5⟩ := runBody_after m k B hs.length h127 rest
        (emit (Next (m + 1) c).c (Event.resume k)) hf'
        (by simp [n4, hh]) (by simp [n3]; omega) (by simp [n3]; omega) (by simp [n3]; omega)
      rw [runBody]
      simp only [n1]
      refine ⟨a1, by simp [a2, n2, bodyEvents], by simp [a3, n3]; omega, by simp [a4, n4], ?_⟩
      intro v hv
      rcases a5 v hv with h | h
      · exact n5 v (by simpa using h)
      · exact Or.inr h
    | log tag =>
      have hf' : callsFail rest = false := by simpa [callsFail, Op.isFail] using hf
      have hcnt : nextCalls (Op.log tag :: rest) = nextCalls rest := by
        simp [nextCalls, Op.isNext]
      rw [hcnt] at h0 h2 h3 ⊢
      obtain ⟨a1, a2, a3, a4, a5⟩ := ih (emit c (Event.log tag)) hf' (by simpa using hk)
        (by simpa using hh) h0 h2 h3
      rw [runBody]
      exact ⟨a1, by simp [a2, bodyEvents], a3, by simpa using a4, by simpa using a5⟩
    | set key value =>
      have hf' : callsFail rest = false := by simpa [callsFail, Op.isFail] using hf
      have hcnt : nextCalls (Op.set key value :: rest) = nextCalls rest := by
        simp [nextCalls, Op.isNext]
      rw [hcnt] at h0 h2 h3 ⊢
      obtain ⟨a1, a2, a3, a4, a5⟩ := ih (Set c key value) hf' (by simpa using hk)
        (by simpa using hh) h0 h2 h3
      rw [runBody]
      exact ⟨a1, by simp [a2, bodyEvents], a3, by simpa using a4, by simpa using a5⟩
    | status code =>
      have hf' : callsFail rest = false := by simpa [callsFail, Op.isFail] using hf
      have hcnt : nextCalls (Op.status code :: rest) = nextCalls rest := by
        simp [nextCalls, Op.isNext]
      rw [hcnt] at h0 h2 h3 ⊢
      obtain ⟨a1, a2, a3, a4, a5⟩ := ih (Status c code) hf' (by simpa using hk)
        (by simpa using hh) h0 h2 h3
      rw [runBody]
      exact ⟨a1, by simp [a2, bodyEvents], a3, by simpa using a4, by simpa using a5⟩

theorem totalNext_append (a b : List HandlerFunc) :
    totalNext (a ++ b) = totalNext a + totalNext b := by
  simp [totalNext]

theorem forLoop_chain (hs : List HandlerFunc) (hwrap : hs.length + totalNext hs ≤ 127) :
    ∀ (suf pre : List HandlerFunc), hs = pre ++ suf → (∀ h ∈ suf, callsFail h = false) →
      ∀ (m j : Nat), suf.length ≤ m → suf.length ≤ j →
      ∀ c : Context, c.handlers = hs → c.index = (pre.length : Int) →
      Step c (forLoop (Next m) (hs.length : Int) j c) (expTrace pre.length suf)
        ((hs.length : Int) + (totalNext suf : Nat))
        ((hs.length : Int) + (totalNext hs : Nat)) := by
  intro suf
  induction suf with
  | nil =>
    intro pre hpre _ m j _ _ c hh hi
    have hnot : ¬ c.index < (hs.length : Int) := by
      rw [hi, hpre]
      simp
    rw [forLoop_done _ _ _ _ hnot]
    refine ⟨rfl, by simp [expTrace], ?_, rfl, fun v hv => Or.inl hv⟩
    rw [hi, hpre]
    simp [totalNext]
  | cons h rest ih =>
    intro pre hpre ht m j hm hj c hh hi
    have hL : hs.length = pre.length + rest.length + 1 := by
      rw [hpre]
      simp
      omega
    have hT : totalNext hs = totalNext pre + (nextCalls h + totalNext rest) := by
      rw [hpre, totalNext_append]
      simp [totalNext]
    have hTs : totalNext (h :: rest) = nextCalls h + totalNext rest := by
      simp [totalNext]
    obtain ⟨j', rfl⟩ : ∃ j', j = j' + 1 := ⟨j - 1, by simp at hj; omega⟩
    obtain ⟨m', rfl⟩ : ∃ m', m = m' + 1 := ⟨m - 1, by simp at hm; omega⟩
    simp only [List.length_cons, Nat.add_le_add_iff_right] at hm hj
    have hlt : c.index < (hs.length : Int) := by
      rw [hi]
      omega
    have hat : handlerAt c = some h := by
      unfold handlerAt
      rw [hi, hh, hpre]
      simp only [Int.toNat_ofNat, Nat.cast_nonneg, if_true]
      rw [List.getElem?_append_right (le_refl _)]
      simp
    have hnf : callsFail h = false := ht h (List.mem_cons_self _ _)
    have hpre' : hs = (pre ++ [h]) ++ rest := by simp [hpre]
    have ht' : ∀ h' ∈ rest, callsFail h' = false :=
      fun h' hm' => ht h' (List.mem_cons_of_mem _ hm')
    rw [forLoop]
    simp only [hlt, if_true, hat]
    simp only [hi]
    by_cases hc : callsNext h = true
    · have hpos : 0 < nextCalls h := by simpa [callsNext] using hc
      have hnxt : ∀ c' : Context, c'.index = (pre.length : Int) → c'.handlers = hs →
          Step c' (Next (m' + 1) c') (expTrace (pre.length + 1) rest)
            ((hs.length : Int) + (totalNext rest : Nat))
            ((hs.length : Int) + (totalNext hs : Nat)) := by
        intro c' hi' hh'
        rw [Next]
        simp only [setIndex_handlers, hh', hi']
        rw [int8_of_range _ (by omega) (by omega), int8_of_range _ (by omega) (by omega)]
        obtain ⟨a1, a2, a3, a4, a5⟩ := ih (pre ++ [h]) hpre' ht' m' m' hm hm
          (setIndex c' ((pre.length : Int) + 1)) (by simp [hh']) (by simp)
        refine ⟨a1, by simpa using a2, by simpa using a3, by simpa using a4, ?_⟩
        intro v hv
        rcases a5 v hv with h1 | h1
        · simp only [setIndex_cursorLog, List.mem_append, List.mem_singleton] at h1
          rcases h1 with h1 | h1
          · exact Or.inl h1
          · right
            omega
        · exact Or.inr h1
      obtain ⟨b1, b2, b3, b4, b5⟩ := runBody_first m' hs pre.length _ _ (by omega) _
        (by omega) hnxt h (emit c (Event.enter pre.length)) hnf (by simp [hi]) (by simp [hh])
        hpos (by omega) (by omega)
      simp only [b1, b3]
      rw [int8_of_range _ (by omega) (by omega)]
      rw [forLoop_done _ _ _ _ (by simp; omega)]
      refine ⟨rfl, ?_, ?_, by simp [b4], ?_⟩
      · simp [b2, expTrace, hc]
      · simp only [setIndex_index, hTs]
        push_cast
        omega
      · intro v hv
        simp only [setIndex_cursorLog, List.mem_append, List.mem_singleton] at hv
        rcases hv with hv | hv
        · rcases b5 v hv with h1 | h1
          · exact Or.inl (by simpa using h1)
          · exact Or.inr h1
        · right
          omega
    · have hc' : callsNext h = false := by simpa using hc
      have hn0 : nextCalls h = 0 := by
        simpa [callsNext] using hc'
      obtain ⟨b1, b2, b3, b4, b5⟩ := runBody_plain (Next (m' + 1)) pre.length [] h
        (emit c (Event.enter pre.length)) hn0 hnf
      simp only [b1, b3, emit_index, hi]
      rw [int8_of_range _ (by omega) (by omega)]
      obtain ⟨a1, a2, a3, a4, a5⟩ := ih (pre ++ [h]) hpre' ht' (m' + 1) j' (by omega) hj
        (setIndex (runBody (Next (m' + 1)) pre.length h (emit c (Event.enter pre.length))).c
          ((pre.length : Int) + 1)) (by simp [b4, hh]) (by simp)
      refine ⟨a1, ?_, ?_, by simpa [b4] using a4, ?_⟩
      · simp only [List.length_append, List.length_singleton] at a2
        simp [a2, b2, expTrace, hc']
      · simp [a3, hTs, hn0]
      · intro v hv
        rcases a5 v hv with h1 | h1
        · simp only [setIndex_cursorLog, List.mem_append, List.mem_singleton, b5,
            emit_cursorLog] at h1
          rcases h1 with h1 | h1
          · exact Or.inl h1
          · right
            omega
        · exact Or.inr h1

theorem Next_chain (hs : List HandlerFunc) (hwrap : hs.length + totalNext hs ≤ 127)
    (hnf : ∀ h ∈ hs, callsFail h = false) (fuel : Nat) (hf : hs.length + 1 ≤ fuel) :
    Step (fresh hs) (Next fuel (fresh hs)) (expTrace 0 hs)
      ((hs.length : Int) + (totalNext hs : Nat)) ((hs.length : Int) + (totalNext hs : Nat)) := by
  obtain ⟨m, rfl⟩ : ∃ m, fuel = m + 1 := ⟨fuel - 1, by omega⟩
  have hfr : (fresh hs).handlers = hs := rfl
  have hfi : (fresh hs).index = -1 := rfl
  rw [Next]
  simp only [setIndex_handlers, hfr, hfi]
  rw [int8_of_range _ (by omega) (by omega), int8_of_range _ (by omega) (by omega)]
  obtain ⟨a1, a2, a3, a4, a5⟩ := forLoop_chain hs hwrap hs [] rfl hnf m m (by omega) (by omega)
    (setIndex (fresh hs) (-1 + 1)) rfl (by simp)
  refine ⟨a1, by simpa using a2, by simpa using a3, by simpa using a4, ?_⟩
  intro v hv
  rcases a5 v hv with h1 | h1
  · simp only [setIndex_cursorLog, List.mem_append, List.mem_singleton] at h1
    rcases h1 with h1 | h1
    · exact Or.inl h1
    · right
      omega
  · exact Or.inr h1

theorem totalNext_le_of_tame :
    ∀ hs : List HandlerFunc, (∀ h ∈ hs, tame h = true) → totalNext hs ≤ hs.length := by
  intro hs
  induction hs with
  | nil => intro _; simp [totalNext]
  | cons h rest ih =>
    intro ht
    have h1 : nextCalls h ≤ 1 := by
      have := ht h (List.mem_cons_self _ _)
      simp only [tame, Bool.and_eq_true, decide_eq_true_eq] at this
      exact this.1
    have h2 := ih (fun h' hm => ht h' (List.mem_cons_of_mem _ hm))
    simp only [totalNext, List.map_cons, List.sum_cons, List.length_cons] at h2 ⊢
    omega

theorem noFail_of_tame (hs : List HandlerFunc) (ht : ∀ h ∈ hs, tame h = true) :
    ∀ h ∈ hs, callsFail h = false := by
  intro h hm
  have := ht h hm
  simp only [tame, Bool.and_eq_true, decide_eq_true_eq, Bool.not_eq_true'] at this
  exact this.2

theorem enters_append (a b : List Event) : enters (a ++ b) = enters a ++ enters b := by
  induction a with
  | nil => rfl
  | cons e a ih => cases e <;> simp [enters, ih]

theorem logs_append (a b : List Event) : logs (a ++ b) = logs a ++ logs b := by
  induction a with
  | nil => rfl
  | cons e a ih => cases e <;> simp [logs, ih]

theorem enters_bodyEvents (k : Int) :
    ∀ (ops : List Op) (inner : List Event),
      enters (bodyEvents k inner ops) = if callsNext ops then enters inner else [] := by
  intro ops
  induction ops with
  | nil => intro inner; simp [bodyEvents, enters, callsNext, nextCalls]
  | cons op rest ih =>
    intro inner
    cases op with
    | next =>
      have h0 := ih []
      simp only [enters, ite_self] at h0
      simp [bodyEvents, enters_append, enters, h0, callsNext, nextCalls, Op.isNext]
    | log tag => simpa [bodyEvents, enters, callsNext, nextCalls, Op.isNext] using ih inner
    | fail code err =>
      simpa [bodyEvents, enters, callsNext, nextCalls, Op.isNext] using ih inner
    | set key value =>
      simpa [bodyEvents, enters, callsNext, nextCalls, Op.isNext] using ih inner
    | status code =>
      simpa [bodyEvents, enters, callsNext, nextCalls, Op.isNext] using ih inner

theorem enters_expTrace :
    ∀ (suf : List HandlerFunc) (k : Nat),
      enters (expTrace k suf) = (List.range' k suf.length).map Int.ofNat := by
  intro suf
  induction suf with
  | nil => intro k; simp [expTrace, enters]
  | cons h rest ih =>
    intro k
    have ih' := ih (k + 1)
    by_cases hc : callsNext h = true
    · simp [expTrace, hc, enters, enters_bodyEvents, ih', List.range'_succ]
    · simp [expTrace, hc, enters, enters_append, enters_bodyEvents, ih', List.range'_succ]

theorem bodyEvents_split (k : Int) :
    ∀ (ops : List Op) (inner : List Event), callsNext ops = true →
      ∃ a b, bodyEvents k inner ops = a ++ inner ++ Event.resume k :: b := by
  intro ops
  induction ops with
  | nil => intro inner hc; simp [callsNext, nextCalls] at hc
  | cons op rest ih =>
    intro inner hc
    cases op with
    | next => exact ⟨[], bodyEvents k [] rest, by simp [bodyEvents]⟩
    | log tag =>
      obtain ⟨a, b, hab⟩ := ih inner (by simpa [callsNext, nextCalls, Op.isNext] using hc)
      exact ⟨Event.log tag :: a, b, by simp [bodyEvents, hab]⟩
    | fail code err =>
      obtain ⟨a, b, hab⟩ := ih inner (by simpa [callsNext, nextCalls, Op.isNext] using hc)
      exact ⟨a, b, by simp [bodyEvents, hab]⟩
    | set key value =>
      obtain ⟨a, b, hab⟩ := ih inner (by simpa [callsNext, nextCalls, Op.isNext] using hc)
      exact ⟨a, b, by simp [bodyEvents, hab]⟩
    | status code =>
      obtain ⟨a, b, hab⟩ := ih inner (by simpa [callsNext, nextCalls, Op.isNext] using hc)
      exact ⟨a, b, by simp [bodyEvents, hab]⟩

theorem mem_enter_expTrace :
    ∀ (suf : List HandlerFunc) (k i : Nat), k ≤ i → i < k + suf.length →
      Event.enter (i : Int) ∈ expTrace k suf := by
  intro suf
  induction suf with
  | nil => intro k i h1 h2; simp at h2; omega
  | cons h rest ih =>
    intro k i h1 h2
    simp only [List.length_cons] at h2
    by_cases hik : i = k
    · subst hik
      by_cases hc : callsNext h = true <;> simp [expTrace, hc]
    · have hin := ih (k + 1) i (by omega) (by omega)
      by_cases hc : callsNext h = true
      · obtain ⟨a, b, hab⟩ := bodyEvents_split k h (expTrace (k + 1) rest) hc
        simp only [expTrace, hc, if_true, hab]
        simp [hin]
      · simp [expTrace, hc, hin]

theorem resume_expTrace :
    ∀ (suf : List HandlerFunc) (k j : Nat) (h : HandlerFunc),
      suf[j]? = some h → callsNext h = true →
      ∃ a b, expTrace k suf = a ++ Event.resume ((k + j : Nat) : Int) :: b ∧
        ∀ i : Nat, k + j < i → i < k + suf.length → Event.enter (i : Int) ∈ a := by
  intro suf
  induction suf with
  | nil => intro k j h hj; simp at hj
  | cons h0 rest ih =>
    intro k j h hj hc
    cases j with
    | zero =>
      simp only [List.getElem?_cons_zero, Option.some.injEq] at hj
      subst hj
      obtain ⟨a, b, hab⟩ := bodyEvents_split k h0 (expTrace (k + 1) rest) hc
      refine ⟨Event.enter k :: (a ++ expTrace (k + 1) rest), b, ?_, ?_⟩
      · simp [expTrace, hc, hab]
      · intro i h1 h2
        simp only [List.length_cons] at h2
        have := mem_enter_expTrace rest (k + 1) i (by omega) (by omega)
        simp [this]
    | succ j =>
      simp only [List.getElem?_cons_succ] at hj
      obtain ⟨a, b, hab, hmem⟩ := ih (k + 1) j h hj hc
      have hidx : k + 1 + j = k + (j + 1) := by omega
      rw [hidx] at hab
      by_cases hc0 : callsNext h0 = true
      · obtain ⟨a0, b0, hab0⟩ := bodyEvents_split k h0 (expTrace (k + 1) rest) hc0
        refine ⟨Event.enter k :: (a0 ++ a), b ++ Event.resume k :: b0, ?_, ?_⟩
        · rw [expTrace]
          simp only [hc0, if_true]
          rw [hab0, hab]
          simp
        · intro i h1 h2
          simp only [List.length_cons] at h2
          have := hmem i (by omega) (by omega)
          simp [this]
      · refine ⟨Event.enter k :: (bodyEvents k [] h0 ++ a), b, ?_, ?_⟩
        · simp [expTrace, hc0, hab]
        · intro i h1 h2
          simp only [List.length_cons] at h2
          have := hmem i (by omega) (by omega)
          simp [this]

theorem noFail_wrapper (ab : List (Nat × Nat)) :
    ∀ h ∈ ab.map wrapper, callsFail h = false := by
  intro h hm
  obtain ⟨x, _, rfl⟩ := List.mem_map.1 hm
  simp [wrapper, callsFail, Op.isFail]

theorem totalNext_wrapper (ab : List (Nat × Nat)) : totalNext (ab.map wrapper) = ab.length := by
  induction ab with
  | nil => rfl
  | cons x rest ih =>
    simp only [totalNext, List.map_cons, List.sum_cons, List.length_cons] at ih ⊢
    rw [ih]
    simp [wrapper, nextCalls, Op.isNext]
    omega

theorem logs_expTrace_wrapper :
    ∀ (ab : List (Nat × Nat)) (k : Nat),
      logs (expTrace k (ab.map wrapper)) = ab.map Prod.fst ++ (ab.map Prod.snd).reverse := by
  intro ab
  induction ab with
  | nil => intro k; simp [expTrace, logs]
  | cons x rest ih =>
    intro k
    have hc : callsNext (wrapper x) = true := by
      simp [callsNext, wrapper, nextCalls, Op.isNext]
    rw [List.map_cons, expTrace]
    simp only [hc, if_true]
    simp [wrapper, bodyEvents, logs, logs_append, ih]

/-- C4: in a chain of `n ≤ 63` handlers where handler `k` records `pre_k`, calls
`Next` once and records `post_k`, one call of `Next` on a fresh context returns,
invokes the slots `0, .., n-1` once each in this order, and records
`pre_0, .., pre_{n-1}, post_{n-1}, .., post_0`. -/
theorem C4_nested_continuation (ab : List (Nat × Nat)) (hlen : ab.length ≤ 63)
    (fuel : Nat) (hf : ab.length + 1 ≤ fuel) :
    (Next fuel (fresh (ab.map wrapper))).out = Outcome.ok ∧
    logs (Next fuel (fresh (ab.map wrapper))).c.trace
      = ab.map Prod.fst ++ (ab.map Prod.snd).reverse ∧
    enters (Next fuel (fresh (ab.map wrapper))).c.trace
      = (List.range ab.length).map Int.ofNat := by
  have hl : (ab.map wrapper).length = ab.length := List.length_map _ _
  obtain ⟨a1, a2, _, _, _⟩ := Next_chain (ab.map wrapper)
    (by rw [hl, totalNext_wrapper]; omega) (noFail_wrapper ab) fuel (by omega)
  have ht : (fresh (ab.map wrapper)).trace = [] := rfl
  rw [ht, List.nil_append] at a2
  refine ⟨a1, ?_, ?_⟩
  · rw [a2, logs_expTrace_wrapper]
  · rw [a2, enters_expTrace, hl, List.range_eq_range']

/-- The bound `63` is sharp: with 64 handlers that each call `Next` once the
last increment of the cursor wraps from `127` to `-128` and the indexing
`c.handlers[-128]` panics. -/
theorem cursor_wraps_at_64 :
    (Next 70 (fresh (List.replicate 64 [Op.next]))).out = Outcome.panicked ∧
    (Next 70 (fresh (List.replicate 64 [Op.next]))).c.index = -128 := by
  set_option maxRecDepth 1000000 in decide

/-- Witness of C4 on a chain of two handlers. -/
theorem C4_nested_continuation_witness :
    (Next 3 (fresh ([(1, 2), (3, 4)].map wrapper))).out = Outcome.ok ∧
    logs (Next 3 (fresh ([(1, 2), (3, 4)].map wrapper))).c.trace
      = [(1, 2), (3, 4)].map Prod.fst ++ ([(1, 2), (3, 4)].map Prod.snd).reverse ∧
    enters (Next 3 (fresh ([(1, 2), (3, 4)].map wrapper))).c.trace
      = (List.range [(1, 2), (3, 4)].length).map Int.ofNat :=
  C4_nested_continuation [(1, 2), (3, 4)] (by decide) 3 (by decide)

/-- C10: in a chain of `n ≤ 63` handlers that each call `Next` at most once and
never `Fail`, a run of `Next` from a fresh context (cursor `-1`) returns
without an indexing panic, writes only cursor values between `0` and
`2n ≤ 126` (so the `int8` cursor never wraps), indexes `c.handlers` exactly at
the positions `0, .., n-1`, and invokes no slot twice. -/
theorem C10_cursor_width_safety (hs : List HandlerFunc) (hlen : hs.length ≤ 63)
    (ht : ∀ h ∈ hs, tame h = true) (fuel : Nat) (hf : hs.length + 1 ≤ fuel) :
    (fresh hs).index = -1 ∧
    (Next fuel (fresh hs)).out = Outcome.ok ∧
    (∀ v ∈ (Next fuel (fresh hs)).c.cursorLog,
      0 ≤ v ∧ v ≤ 2 * (hs.length : Int) ∧ v ≤ 126) ∧
    (∀ i ∈ enters (Next fuel (fresh hs)).c.trace, 0 ≤ i ∧ i < (hs.length : Int)) ∧
    (enters (Next fuel (fresh hs)).c.trace).Nodup ∧
    (Next fuel (fresh hs)).c.index ≤ 2 * (hs.length : Int) := by
  have hcnt := totalNext_le_of_tame hs ht
  obtain ⟨a1, a2, a3, _, a5⟩ := Next_chain hs (by omega) (noFail_of_tame hs ht) fuel hf
  have htr : (fresh hs).trace = [] := rfl
  have hcl : (fresh hs).cursorLog = [] := rfl
  rw [htr, List.nil_append] at a2
  have hen := enters_expTrace hs 0
  refine ⟨rfl, a1, ?_, ?_, ?_, ?_⟩
  · intro v hv
    rcases a5 v hv with h1 | h1
    · rw [hcl] at h1
      simp at h1
    · exact ⟨h1.1, by omega, by omega⟩
  · intro i hi
    rw [a2, hen] at hi
    obtain ⟨x, hx, rfl⟩ := List.mem_map.1 hi
    rw [List.mem_range'_1] at hx
    simp only [Int.ofNat_eq_coe]
    omega
  · rw [a2, hen]
    exact (List.nodup_range' 0 hs.length).map (fun a b hab => by simpa using hab)
  · rw [a3]
    omega

/-- Witness of C10 on a chain of three handlers. -/
theorem C10_cursor_width_safety_witness :
    (fresh [[Op.log 0, Op.next], [Op.log 1], [Op.next, Op.log 2]]).index = -1 ∧
    (Next 4 (fresh [[Op.log 0, Op.next], [Op.log 1], [Op.next, Op.log 2]])).out
      = Outcome.ok ∧
    (∀ v ∈ (Next 4 (fresh [[Op.log 0, Op.next], [Op.log 1], [Op.next, Op.log 2]])).c.cursorLog,
      0 ≤ v ∧ v ≤ 2 * (([[Op.log 0, Op.next], [Op.log 1], [Op.next, Op.log 2]] :
        List HandlerFunc).length : Int) ∧ v ≤ 126) ∧
    (∀ i ∈ enters (Next 4 (fresh [[Op.log 0, Op.next], [Op.log 1], [Op.next, Op.log 2]])).c.trace,
      0 ≤ i ∧ i < (([[Op.log 0, Op.next], [Op.log 1], [Op.next, Op.log 2]] :
        List HandlerFunc).length : Int)) ∧
    (enters (Next 4 (fresh [[Op.log 0, Op.next], [Op.log 1], [Op.next, Op.log 2]])).c.trace).Nodup ∧
    (Next 4 (fresh [[Op.log 0, Op.next], [Op.log 1], [Op.next, Op.log 2]])).c.index
      ≤ 2 * (([[Op.log 0, Op.next], [Op.log 1], [Op.next, Op.log 2]] :
        List HandlerFunc).length : Int) :=
  C10_cursor_width_safety [[Op.log 0, Op.next], [Op.log 1], [Op.next, Op.log 2]]
    (by decide) (by decide) 4 (by decide)

/-- Counterexample to C1: in the chain `[h0, h1]` where `h0` only records a
marker (it calls neither `Next` nor `Fail`), the run started by `Next` on a
fresh context returns and has invoked slot `1`, after slot `0`. -/
theorem C1_counterexample :
    callsNext [Op.log 0] = false ∧ callsFail [Op.log 0] = false ∧
    (Next 3 (fresh [[Op.log 0], [Op.log 1]])).out = Outcome.ok ∧
    (Next 3 (fresh [[Op.log 0], [Op.log 1]])).c.trace
      = [Event.enter 0, Event.log 0, Event.enter 1, Event.log 1] ∧
    ¬ (∀ k : Int, 0 < k → Event.enter k ∉ (Next 3 (fresh [[Op.log 0], [Op.log 1]])).c.trace) := by
  refine ⟨by decide, by decide, by decide, by decide, ?_⟩
  intro h
  exact h 1 (by decide) (by decide)

/-- C1, amended: a handler that returns without calling `Next` does not stop
the chain.  In every chain in which no handler calls `Fail` and whose length
plus number of `Next` calls is at most `127` (so that the `int8` cursor does
not wrap), the run started by `Next` on a fresh context returns, its trace is
the one `expTrace` prescribes, every slot `0, .., n-1` is invoked once, in
chain order (so the slots after a handler that did not call `Next` are
invoked too, by the loop of the enclosing `Next`), and every handler that
called `Next` regains control after all slots further down were invoked. -/
theorem C1_no_short_circuit (hs : List HandlerFunc)
    (hnf : ∀ h ∈ hs, callsFail h = false) (hwrap : hs.length + totalNext hs ≤ 127)
    (fuel : Nat) (hf : hs.length + 1 ≤ fuel) :
    (Next fuel (fresh hs)).out = Outcome.ok ∧
    (Next fuel (fresh hs)).c.trace = expTrace 0 hs ∧
    enters (Next fuel (fresh hs)).c.trace = (List.range hs.length).map Int.ofNat ∧
    (∀ (i : Nat) (h : HandlerFunc), hs[i]? = some h → callsNext h = false →
      ∀ k : Nat, i < k → k < hs.length →
        Event.enter (k : Int) ∈ (Next fuel (fresh hs)).c.trace) ∧
    (∀ (j : Nat) (h : HandlerFunc), hs[j]? = some h → callsNext h = true →
      ∃ a b, (Next fuel (fresh hs)).c.trace = a ++ Event.resume (j : Int) :: b ∧
        ∀ k : Nat, j < k → k < hs.length → Event.enter (k : Int) ∈ a) := by
  obtain ⟨a1, a2, _, _, _⟩ := Next_chain hs hwrap hnf fuel hf
  have htr : (fresh hs).trace = [] := rfl
  rw [htr, List.nil_append] at a2
  refine ⟨a1, a2, ?_, ?_, ?_⟩
  · rw [a2, enters_expTrace hs 0, List.range_eq_range']
  · intro i h _ _ k _ hk
    rw [a2]
    exact mem_enter_expTrace hs 0 k (by omega) (by omega)
  · intro j h hj hc
    obtain ⟨a, b, hab, hmem⟩ := resume_expTrace hs 0 j h hj hc
    refine ⟨a, b, ?_, ?_⟩
    · rw [a2, hab]
      simp
    · intro k h1 h2
      exact hmem k (by omega) (by omega)

/-- Witness of the amended C1 on a chain of three handlers, the first of which
calls `Next` twice. -/
theorem C1_no_short_circuit_witness :
    (Next 4 (fresh [[Op.next, Op.next, Op.log 9], [Op.log 0], [Op.log 1]])).c.trace
      = [Event.enter 0, Event.enter 1, Event.log 0, Event.enter 2, Event.log 1,
         Event.resume 0, Event.resume 0, Event.log 9] ∧
    (Next 4 (fresh [[Op.next, Op.next, Op.log 9], [Op.log 0], [Op.log 1]])).c.trace
      = expTrace 0 [[Op.next, Op.next, Op.log 9], [Op.log 0], [Op.log 1]] ∧
    enters (Next 4 (fresh [[Op.next, Op.next, Op.log 9], [Op.log 0], [Op.log 1]])).c.trace
      = [0, 1, 2] :=
  ⟨by decide,
   (C1_no_short_circuit [[Op.next, Op.next, Op.log 9], [Op.log 0], [Op.log 1]] (by decide)
      (by decide) 4 (by decide)).2.1,
   (C1_no_short_circuit [[Op.next, Op.next, Op.log 9], [Op.log 0], [Op.log 1]] (by decide)
      (by decide) 4 (by decide)).2.2.1⟩

/-! ## `Fail`, and runs whose cursor is past the last slot -/

theorem enters_failed (F : List Event) (hF : ∀ e ∈ F, e.isFailed = true) : enters F = [] := by
  induction F with
  | nil => rfl
  | cons e F ih =>
    have he := hF e (List.mem_cons_self _ _)
    have ih' := ih (fun x hx => hF x (List.mem_cons_of_mem _ hx))
    cases e <;> simp [Event.isFailed] at he
    simp [enters, ih']

theorem forLoop_quiet_incr (nxt : Context → Res) (j : Nat) (c : Context) (hq : Quiet c) :
    Ran c (forLoop nxt (cap c) j (setIndex c (int8 (c.index + 1)))) [] := by
  obtain ⟨q1, q2, q3⟩ := hq
  have hb := int8_bounds (c.handlers.length : Int)
  by_cases h127 : c.index = 127
  · have hidx : int8 (c.index + 1) = -128 := by
      rw [h127]
      decide
    rw [hidx]
    by_cases hs : (-128 : Int) < cap c
    · have hat : handlerAt (setIndex c (-128)) = none := by
        simp [handlerAt]
      have hres : forLoop nxt (cap c) j (setIndex c (-128)) =
          ⟨setIndex c (-128), Outcome.panicked⟩ := by
        cases j <;> simp [forLoop, hs, hat]
      rw [hres]
      exact ⟨rfl, by simp, by simp, by simp⟩
    · rw [forLoop_done _ _ _ _ (by simpa using hs)]
      refine ⟨rfl, by simp, by simp, fun _ => ?_⟩
      unfold Quiet cap
      unfold cap at hs
      simp only [setIndex_index, setIndex_handlers]
      omega
  · have hidx : int8 (c.index + 1) = c.index + 1 :=
      int8_of_range _ (by omega) (by omega)
    rw [hidx]
    rw [forLoop_done _ _ _ _ (by simp; omega)]
    refine ⟨rfl, by simp, by simp, fun _ => ?_⟩
    unfold Quiet cap
    unfold cap at q3
    simp only [setIndex_index, setIndex_handlers]
    omega

theorem Next_quiet (k : Nat) (c : Context) (hq : Quiet c) : Ran c (Next (k + 1) c) [] := by
  rw [Next]
  exact forLoop_quiet_incr (Next k) k c hq

theorem runBody_quiet (nxt : Context → Res) (pos : Int)
    (hnxt : ∀ c, Quiet c → Ran c (nxt c) []) :
    ∀ (ops : List Op) (c : Context), Quiet c → Ran c (runBody nxt pos ops c) [] := by
  intro ops
  induction ops with
  | nil =>
    intro c hq
    exact ⟨rfl, by simp [runBody], by simp [runBody], fun _ => hq⟩
  | cons op rest ih =>
    intro c hq
    cases op with
    | log tag =>
      obtain ⟨h1, h2, h3, h4⟩ := ih (emit c (Event.log tag)) hq
      rw [runBody]
      exact ⟨h1, by simpa [enters_append, enters] using h2, h3, h4⟩
    | next =>
      obtain ⟨n1, n2, n3, n4⟩ := hnxt c hq
      rw [runBody]
      cases hout : (nxt c).out with
      | ok =>
        have hq' : Quiet (emit (nxt c).c (Event.resume pos)) := n4 hout
        obtain ⟨h1, h2, h3, h4⟩ := ih (emit (nxt c).c (Event.resume pos)) hq'
        simp only
        refine ⟨by rw [h1]; exact n1, ?_, h3, h4⟩
        rw [h2]
        simpa [enters_append, enters] using n2
      | panicked => exact ⟨n1, n2, by simp [hout], by simp [hout]⟩
      | timeout => exact absurd hout n3
    | fail code err =>
      obtain ⟨f1, f2, ⟨F, f3, f4⟩, _⟩ := Fail_spec c code err
      have hq' : Quiet (Fail c code err) := by
        have hb := int8_bounds (c.handlers.length : Int)
        unfold Quiet cap
        unfold cap at f2
        rw [f1, f2]
        omega
      obtain ⟨h1, h2, h3, h4⟩ := ih (Fail c code err) hq'
      rw [runBody]
      refine ⟨by rw [h1, f1], ?_, h3, h4⟩
      rw [h2, f3]
      simp [enters_append, enters, enters_failed F f4]
    | set key value =>
      obtain ⟨h1, h2, h3, h4⟩ := ih (Set c key value) hq
      rw [runBody]
      exact ⟨h1, by simpa using h2, h3, h4⟩
    | status code =>
      obtain ⟨h1, h2, h3, h4⟩ := ih (Status c code) hq
      rw [runBody]
      exact ⟨h1, by simpa using h2, h3, h4⟩

/-! ## Handlers that call `Next` once, in front of an arbitrary last handler -/

theorem split_once :
    ∀ M : List Op, nextCalls M = 1 → failsBeforeNext M = false →
      ∃ pre post, M = pre ++ Op.next :: post ∧ nextCalls pre = 0 ∧ callsFail pre = false := by
  intro M
  induction M with
  | nil => intro h; simp [nextCalls] at h
  | cons op rest ih =>
    intro hn hf
    cases op with
    | next => exact ⟨[], rest, rfl, rfl, rfl⟩
    | fail code err => simp [failsBeforeNext] at hf
    | log tag =>
      obtain ⟨pre, post, h1, h2, h3⟩ := ih (by simpa [nextCalls, Op.isNext] using hn)
        (by simpa [failsBeforeNext] using hf)
      exact ⟨Op.log tag :: pre, post, by simp [h1],
        by simpa [nextCalls, Op.isNext] using h2, by simpa [callsFail, Op.isFail] using h3⟩
    | set key value =>
      obtain ⟨pre, post, h1, h2, h3⟩ := ih (by simpa [nextCalls, Op.isNext] using hn)
        (by simpa [failsBeforeNext] using hf)
      exact ⟨Op.set key value :: pre, post, by simp [h1],
        by simpa [nextCalls, Op.isNext] using h2, by simpa [callsFail, Op.isFail] using h3⟩
    | status code =>
      obtain ⟨pre, post, h1, h2, h3⟩ := ih (by simpa [nextCalls, Op.isNext] using hn)
        (by simpa [failsBeforeNext] using hf)
      exact ⟨Op.status code :: pre, post, by simp [h1],
        by simpa [nextCalls, Op.isNext] using h2, by simpa [callsFail, Op.isFail] using h3⟩

theorem runBody_plain_append (nxt : Context → Res) (pos : Int) (rest : List Op) :
    ∀ (pre : List Op) (c : Context), nextCalls pre = 0 → callsFail pre = false →
      ∃ c', runBody nxt pos (pre ++ rest) c = runBody nxt pos rest c' ∧
        c'.index = c.index ∧ c'.handlers = c.handlers ∧ enters c'.trace = enters c.trace := by
  intro pre
  induction pre with
  | nil => intro c _ _; exact ⟨c, rfl, rfl, rfl, rfl⟩
  | cons op pre ih =>
    intro c hn hf
    cases op with
    | next => simp [nextCalls, Op.isNext] at hn
    | fail code err => simp [callsFail, Op.isFail] at hf
    | log tag =>
      obtain ⟨c', h1, h2, h3, h4⟩ := ih (emit c (Event.log tag))
        (by simpa [nextCalls, Op.isNext] using hn) (by simpa [callsFail, Op.isFail] using hf)
      exact ⟨c', by rw [List.cons_append, runBody, h1], h2, h3,
        by simpa [enters_append, enters] using h4⟩
    | set key value =>
      obtain ⟨c', h1, h2, h3, h4⟩ := ih (Set c key value)
        (by simpa [nextCalls, Op.isNext] using hn) (by simpa [callsFail, Op.isFail] using hf)
      exact ⟨c', by rw [List.cons_append, runBody, h1], h2, h3, by simpa using h4⟩
    | status code =>
      obtain ⟨c', h1, h2, h3, h4⟩ := ih (Status c code)
        (by simpa [nextCalls, Op.isNext] using hn) (by simpa [callsFail, Op.isFail] using hf)
      exact ⟨c', by rw [List.cons_append, runBody, h1], h2, h3, by simpa using h4⟩

theorem runBody_once (nxt : Context → Res) (pos : Int) (M : List Op) (c : Context)
    (E : List Int) (hn : nextCalls M = 1) (hf : failsBeforeNext M = false)
    (hq : ∀ c, Quiet c → Ran c (nxt c) [])
    (hN : ∀ c', c'.index = c.index → c'.handlers = c.handlers → Ran c' (nxt c') E) :
    Ran c (runBody nxt pos M c) E := by
  obtain ⟨pre, post, rfl, p1, p2⟩ := split_once M hn hf
  obtain ⟨c', h1, h2, h3, h4⟩ := runBody_plain_append nxt pos (Op.next :: post) pre c p1 p2
  obtain ⟨n1, n2, n3, n4⟩ := hN c' h2 h3
  rw [h1, runBody]
  cases hout : (nxt c').out with
  | ok =>
    have hq' : Quiet (emit (nxt c').c (Event.resume pos)) := n4 hout
    obtain ⟨b1, b2, b3, b4⟩ := runBody_quiet nxt pos hq post _ hq'
    simp only
    refine ⟨by rw [b1]; exact n1.trans h3, ?_, b3, b4⟩
    rw [b2]
    simp [enters_append, enters, n2, h4]
  | panicked =>
    exact ⟨n1.trans h3, by rw [n2, h4], by simp [hout], by simp [hout]⟩
  | timeout => exact absurd hout n3

theorem forLoop_slot (nxt : Context → Res) (c : Context) (h : HandlerFunc) (E : List Int)
    (j : Nat) (hlt : c.index < cap c) (hat : handlerAt c = some h)
    (hb : Ran (emit c (Event.enter c.index))
      (runBody nxt c.index h (emit c (Event.enter c.index))) E) :
    Ran c (forLoop nxt (cap c) (j + 1) c) (c.index :: E) := by
  obtain ⟨b1, b2, b3, b4⟩ := hb
  rw [forLoop]
  simp only [hlt, if_true, hat]
  cases hout : (runBody nxt c.index h (emit c (Event.enter c.index))).out with
  | ok =>
    have hq := b4 hout
    have hcap : cap (runBody nxt c.index h (emit c (Event.enter c.index))).c = cap c := by
      unfold cap
      rw [b1]
      rfl
    obtain ⟨l1, l2, l3, l4⟩ := forLoop_quiet_incr nxt j _ hq
    rw [hcap] at l1 l2 l3 l4
    simp only
    refine ⟨by rw [l1]; exact b1, ?_, l3, l4⟩
    rw [l2, b2]
    simp [enters_append, enters]
  | panicked =>
    refine ⟨b1, ?_, by simp [hout], by simp [hout]⟩
    rw [b2]
    simp [enters_append, enters]
  | timeout => exact absurd hout b3

theorem Next_three (M1 M2 h : HandlerFunc) (c : Context) (m : Nat)
    (h1 : nextCalls M1 = 1) (f1 : failsBeforeNext M1 = false)
    (h2 : nextCalls M2 = 1) (f2 : failsBeforeNext M2 = false)
    (hh : c.handlers = [M1, M2, h]) (hi : c.index = -1) :
    Ran c (Next (m + 4) c) [0, 1, 2] := by
  have hcap : ∀ c' : Context, c'.handlers = [M1, M2, h] → cap c' = 3 := by
    intro c' hc'
    unfold cap
    rw [hc']
    simp [int8]
  have step2 : ∀ c2 : Context, c2.index = 1 → c2.handlers = [M1, M2, h] →
      Ran c2 (Next (m + 2) c2) [2] := by
    intro c2 i2 hh2
    have e : Next (m + 2) c2 = forLoop (Next (m + 1)) (cap (setIndex c2 2)) (m + 1)
        (setIndex c2 2) := by
      rw [Next, i2]
      rfl
    rw [e]
    have hc := hcap (setIndex c2 2) (by simpa using hh2)
    have hr := forLoop_slot (Next (m + 1)) (setIndex c2 2) h [] m
      (by rw [hc]; simp) (by simp [handlerAt, hh2])
      (runBody_quiet (Next (m + 1)) _ (Next_quiet m) h _
        (by
          unfold Quiet
          rw [hcap _ (by simpa using hh2)]
          simp))
    obtain ⟨r1, r2, r3, r4⟩ := hr
    exact ⟨by simpa using r1, by simpa using r2, r3, r4⟩
  have step1 : ∀ c1 : Context, c1.index = 0 → c1.handlers = [M1, M2, h] →
      Ran c1 (Next (m + 3) c1) [1, 2] := by
    intro c1 i1 hh1
    have e : Next (m + 3) c1 = forLoop (Next (m + 2)) (cap (setIndex c1 1)) (m + 2)
        (setIndex c1 1) := by
      rw [Next, i1]
      rfl
    rw [e]
    have hc := hcap (setIndex c1 1) (by simpa using hh1)
    have hr := forLoop_slot (Next (m + 2)) (setIndex c1 1) M2 [2] (m + 1)
      (by rw [hc]; simp) (by simp [handlerAt, hh1])
      (runBody_once (Next (m + 2)) _ M2 _ [2] h2 f2 (Next_quiet (m + 1))
        (fun c' hi' hh' => step2 c' (by simpa using hi') (by simpa [hh1] using hh')))
    obtain ⟨r1, r2, r3, r4⟩ := hr
    exact ⟨by simpa using r1, by simpa using r2, r3, r4⟩
  have e : Next (m + 4) c = forLoop (Next (m + 3)) (cap (setIndex c 0)) (m + 3)
      (setIndex c 0) := by
    rw [Next, hi]
    rfl
  rw [e]
  have hc := hcap (setIndex c 0) (by simpa using hh)
  have hr := forLoop_slot (Next (m + 3)) (setIndex c 0) M1 [1, 2] (m + 2)
    (by rw [hc]; simp) (by simp [handlerAt, hh])
    (runBody_once (Next (m + 3)) _ M1 _ [1, 2] h1 f1 (Next_quiet (m + 2))
      (fun c' hi' hh' => step1 c' (by simpa using hi') (by simpa [hh] using hh')))
  obtain ⟨r1, r2, r3, r4⟩ := hr
  exact ⟨by simpa using r1, by simpa using r2, r3, r4⟩

theorem Next_three_fresh (M1 M2 h : HandlerFunc) (c : Context) (m : Nat)
    (h1 : nextCalls M1 = 1) (f1 : failsBeforeNext M1 = false)
    (h2 : nextCalls M2 = 1) (f2 : failsBeforeNext M2 = false)
    (hh : c.handlers = [M1, M2, h]) (hi : c.index = -1) (ht : c.trace = []) :
    enters (Next (m + 4) c).c.trace = [0, 1, 2] ∧ (Next (m + 4) c).out ≠ Outcome.timeout := by
  obtain ⟨_, r2, r3, _⟩ := Next_three M1 M2 h c m h1 f1 h2 f2 hh hi
  rw [ht] at r2
  exact ⟨r2, r3⟩

theorem nestedSetup_eq (M1 M2 : HandlerFunc) :
    nestedSetup M1 M2 = some
      ({ groupObjs := [{ pfx := "", middlewares := [], parent := none, engine := 0 },
                       { pfx := "/g", middlewares := [M1], parent := some 0, engine := 0 },
                       { pfx := "/g/g1", middlewares := [M2], parent := some 1, engine := 0 }],
         engineObjs := [{ root := 0, router := [], groups := [0, 1, 2] }] }, 0) := by
  have e1 : ("" : String) ++ "/g" = "/g" := by decide
  have e2 : ("/g" : String) ++ "/g1" = "/g/g1" := by decide
  simp [nestedSetup, New, emptyHeap, Group, Use, e1, e2]

/-- Counterexample to C3: `M1` calls `Fail` and then `Next` once, `M2` calls
`Next` once.  `ServeHTTP` collects `[M1, M2]`, and with the route handler
appended the run returns having invoked slot `0` only: `M2` and the route
handler are not executed. -/
theorem C3_counterexample :
    nextCalls [Op.fail 500 "no", Op.next] = 1 ∧ nextCalls [Op.next] = 1 ∧
    ((nestedSetup [Op.fail 500 "no", Op.next] [Op.next]).bind
      (fun p => ServeHTTP p.1 p.2 "/g/g1/x" "GET")).map (fun c => c.handlers)
      = some [[Op.fail 500 "no", Op.next], [Op.next]] ∧
    ((nestedSetup [Op.fail 500 "no", Op.next] [Op.next]).bind
      (fun p => ServeHTTP p.1 p.2 "/g/g1/x" "GET")).map
      (fun c => (enters (Next 9 { c with handlers := c.handlers ++ [[Op.log 3]] }).c.trace,
                 (Next 9 { c with handlers := c.handlers ++ [[Op.log 3]] }).out))
      = some ([0], Outcome.ok) := by
  refine ⟨by decide, by decide, by decide, by decide⟩

/-- C3, amended: on a new engine, with `G = root.Group("/g")`, `G.Use(M1)`,
`G1 = G.Group("/g1")`, `G1.Use(M2)`, every request path that starts with
`/g/g1` makes `ServeHTTP` collect the chain `[M1, M2]` (the root group has no
middleware); and when the route handler `h` is appended and `M1`, `M2` each
call `Next` once and do not call `Fail` before that call, `Next` invokes the
slots of `M1`, `M2`, `h` in this order, once each, and does so within the
fuel given. -/
theorem C3_nested_group_order (M1 M2 h : HandlerFunc) (path method : String) (fuel : Nat)
    (hp : "/g/g1".data <+: path.data)
    (h1 : nextCalls M1 = 1) (f1 : failsBeforeNext M1 = false)
    (h2 : nextCalls M2 = 1) (f2 : failsBeforeNext M2 = false) (hfuel : 4 ≤ fuel) :
    ∃ heap engine c,
      nestedSetup M1 M2 = some (heap, engine) ∧
      ServeHTTP heap engine path method = some c ∧
      c.handlers = [M1, M2] ∧ c.index = -1 ∧
      enters (Next fuel { c with handlers := c.handlers ++ [h] }).c.trace = [0, 1, 2] ∧
      (Next fuel { c with handlers := c.handlers ++ [h] }).out ≠ Outcome.timeout := by
  obtain ⟨m, rfl⟩ : ∃ m, fuel = m + 4 := ⟨fuel - 4, by omega⟩
  have p0 : HasPrefix path "" = true := (hasPrefix_iff _ _).2 (List.nil_prefix)
  have p1 : HasPrefix path "/g" = true := by
    refine (hasPrefix_iff _ _).2 (List.IsPrefix.trans ?_ hp)
    exact ⟨"/g1".data, by decide⟩
  have p2 : HasPrefix path "/g/g1" = true := (hasPrefix_iff _ _).2 hp
  refine ⟨_, _, { newContext path method with handlers := [M1, M2], engine := some 0 },
    nestedSetup_eq M1 M2, ?_, rfl, rfl, ?_⟩
  · simp [ServeHTTP, collectMiddlewares, p0, p1, p2]
  · exact Next_three_fresh M1 M2 h _ m h1 f1 h2 f2 rfl rfl rfl

/-- Witness of C3 for the path `/g/g1/x`. -/
theorem C3_nested_group_order_witness :
    ∃ heap engine c,
      nestedSetup [Op.log 1, Op.next] [Op.next, Op.fail 500 "late"] = some (heap, engine) ∧
      ServeHTTP heap engine "/g/g1/x" "GET" = some c ∧
      c.handlers = [[Op.log 1, Op.next], [Op.next, Op.fail 500 "late"]] ∧ c.index = -1 ∧
      enters (Next 4 { c with handlers := c.handlers ++ [[Op.log 3]] }).c.trace = [0, 1, 2] ∧
      (Next 4 { c with handlers := c.handlers ++ [[Op.log 3]] }).out ≠ Outcome.timeout :=
  C3_nested_group_order [Op.log 1, Op.next] [Op.next, Op.fail 500 "late"] [Op.log 3] "/g/g1/x" "GET" 4
    ⟨"/x".data, by decide⟩ (by decide) (by decide) (by decide) (by decide) (by decide)

/-! ## Every run ends: fuel `128` is enough for every chain -/

theorem halts_of_ran (c : Context) (r : Res) (E : List Int) (h : Ran c r E) : Halts c r :=
  ⟨h.1, h.2.2.1, h.2.2.2⟩

theorem runBody_halts (nxt : Context → Res) (pos : Int)
    (hq : ∀ c, Quiet c → Ran c (nxt c) []) :
    ∀ (ops : List Op) (c : Context),
      (∀ c', c'.index = c.index → c'.handlers = c.handlers → Halts c' (nxt c')) →
      HaltsBody c (runBody nxt pos ops c) := by
  intro ops
  induction ops with
  | nil => intro c _; exact ⟨rfl, by simp [runBody], fun _ => Or.inr rfl⟩
  | cons op rest ih =>
    intro c hN
    cases op with
    | log tag =>
      rw [runBody]
      exact ih (emit c (Event.log tag)) hN
    | set key value =>
      rw [runBody]
      exact ih (Set c key value) hN
    | status code =>
      rw [runBody]
      exact ih (Status c code) hN
    | fail code err =>
      obtain ⟨f1, f2, _, _⟩ := Fail_spec c code err
      have hq' : Quiet (Fail c code err) := by
        have hb := int8_bounds (c.handlers.length : Int)
        unfold Quiet cap
        unfold cap at f2
        rw [f1, f2]
        omega
      obtain ⟨b1, _, b3, b4⟩ := runBody_quiet nxt pos hq rest _ hq'
      rw [runBody]
      exact ⟨b1.trans f1, b3, fun ho => Or.inl (b4 ho)⟩
    | next =>
      obtain ⟨n1, n2, n3⟩ := hN c rfl rfl
      rw [runBody]
      cases hout : (nxt c).out with
      | ok =>
        have hq' : Quiet (emit (nxt c).c (Event.resume pos)) := n3 hout
        obtain ⟨b1, _, b3, b4⟩ := runBody_quiet nxt pos hq rest _ hq'
        exact ⟨b1.trans n1, b3, fun ho => Or.inl (b4 ho)⟩
      | panicked => exact ⟨n1, by simp [hout], by simp [hout]⟩
      | timeout => exact absurd hout n2

theorem forLoop_halts :
    ∀ (d m j : Nat) (c : Context), d ≤ m → d ≤ j → -128 ≤ c.index → c.index ≤ 127 →
      (cap c - c.index ≤ (d : Int) ∨ c.index < 0) →
      Halts c (forLoop (Next m) (cap c) j c) := by
  intro d
  induction d with
  | zero =>
    intro m j c _ _ h1 h2 hd
    by_cases hlt : c.index < cap c
    · have hneg : c.index < 0 := by
        rcases hd with hd | hd
        · simp only [Nat.cast_zero] at hd
          omega
        · exact hd
      have hat : handlerAt c = none := by simp [handlerAt, hneg]
      have hres : forLoop (Next m) (cap c) j c = ⟨c, Outcome.panicked⟩ := by
        cases j <;> simp [forLoop, hlt, hat]
      rw [hres]
      exact ⟨rfl, by simp, by simp⟩
    · rw [forLoop_done _ _ _ _ hlt]
      have hqc : Quiet c := ⟨h1, h2, by omega⟩
      exact ⟨rfl, by simp, fun _ => hqc⟩
  | succ d ih =>
    intro m j c hm hj h1 h2 hd
    by_cases hlt : c.index < cap c
    · cases hat : handlerAt c with
      | none =>
        have hres : forLoop (Next m) (cap c) j c = ⟨c, Outcome.panicked⟩ := by
          cases j <;> simp [forLoop, hlt, hat]
        rw [hres]
        exact ⟨rfl, by simp, by simp⟩
      | some h =>
        have h0 : 0 ≤ c.index := by
          by_contra hneg
          simp [handlerAt, hneg] at hat
        have hcapb := int8_bounds (c.handlers.length : Int)
        have hcap127 : cap c ≤ 127 := hcapb.2
        have hd' : cap c - c.index ≤ ((d + 1 : Nat) : Int) := by
          rcases hd with hd | hd
          · exact hd
          · omega
        obtain ⟨m', rfl⟩ : ∃ m', m = m' + 1 := ⟨m - 1, by omega⟩
        obtain ⟨j', rfl⟩ : ∃ j', j = j' + 1 := ⟨j - 1, by omega⟩
        have hN : ∀ c' : Context, c'.index = (emit c (Event.enter c.index)).index →
            c'.handlers = (emit c (Event.enter c.index)).handlers →
            Halts c' (Next (m' + 1) c') := by
          intro c' hi' hh'
          simp only [emit_index, emit_handlers] at hi' hh'
          have hcap' : cap (setIndex c' (int8 (c'.index + 1))) = cap c := by
            unfold cap
            rw [setIndex_handlers, hh']
          have hidx : int8 (c'.index + 1) = c.index + 1 := by
            rw [hi']
            exact int8_of_range _ (by omega) (by omega)
          have hr := ih m' m' (setIndex c' (int8 (c'.index + 1))) (by omega) (by omega)
            (by rw [setIndex_index, hidx]; omega) (by rw [setIndex_index, hidx]; omega)
            (by
              left
              rw [hcap', setIndex_index, hidx]
              push_cast at hd'
              omega)
          rw [hcap'] at hr
          have hnext : Next (m' + 1) c' =
              forLoop (Next m') (cap c) m' (setIndex c' (int8 (c'.index + 1))) := by
            rw [Next]
            simp only [setIndex_handlers]
            unfold cap
            rw [hh']
          rw [hnext]
          exact ⟨hr.1, hr.2.1, hr.2.2⟩
        obtain ⟨b1, b2, b3⟩ := runBody_halts (Next (m' + 1)) c.index (Next_quiet m') h
          (emit c (Event.enter c.index)) hN
        rw [forLoop]
        simp only [hlt, if_true, hat]
        cases hout : (runBody (Next (m' + 1)) c.index h (emit c (Event.enter c.index))).out with
        | ok =>
          have hcap2 : cap (runBody (Next (m' + 1)) c.index h
              (emit c (Event.enter c.index))).c = cap c := by
            unfold cap
            rw [b1]
            rfl
          simp only
          rcases b3 hout with hq | hsame
          · obtain ⟨l1, _, l3, l4⟩ := forLoop_quiet_incr (Next (m' + 1)) j' _ hq
            rw [hcap2] at l1 l3 l4
            exact ⟨l1.trans b1, l3, l4⟩
          · simp only [emit_index] at hsame
            have hidx : int8 ((runBody (Next (m' + 1)) c.index h
                (emit c (Event.enter c.index))).c.index + 1) = c.index + 1 := by
              rw [hsame]
              exact int8_of_range _ (by omega) (by omega)
            rw [hidx]
            have hcap3 : cap (setIndex (runBody (Next (m' + 1)) c.index h
                (emit c (Event.enter c.index))).c (c.index + 1)) = cap c := by
              unfold cap
              rw [setIndex_handlers, b1]
              rfl
            have hr := ih (m' + 1) j' (setIndex (runBody (Next (m' + 1)) c.index h
                (emit c (Event.enter c.index))).c (c.index + 1)) (by omega) (by omega)
              (by rw [setIndex_index]; omega) (by rw [setIndex_index]; omega)
              (by
                left
                rw [hcap3, setIndex_index]
                push_cast at hd'
                omega)
            rw [hcap3] at hr
            exact ⟨hr.1.trans (by simpa using b1), hr.2.1, hr.2.2⟩
        | panicked => exact ⟨b1, by simp [hout], by simp [hout]⟩
        | timeout => exact absurd hout b2
    · rw [forLoop_done _ _ _ _ hlt]
      have hqc : Quiet c := ⟨h1, h2, by omega⟩
      exact ⟨rfl, by simp, fun _ => hqc⟩

theorem Next_halts (c : Context) (hi : c.index = -1) (fuel : Nat) (hf : 128 ≤ fuel) :
    (Next fuel c).out ≠ Outcome.timeout := by
  obtain ⟨m, rfl⟩ : ∃ m, fuel = m + 1 := ⟨fuel - 1, by omega⟩
  have hb := int8_bounds (c.handlers.length : Int)
  have hidx : int8 (c.index + 1) = 0 := by
    rw [hi]
    decide
  have hr := forLoop_halts 127 m m (setIndex c (int8 (c.index + 1))) (by omega) (by omega)
    (by rw [setIndex_index, hidx]; decide) (by rw [setIndex_index, hidx]; decide)
    (by
      left
      rw [setIndex_index, hidx]
      unfold cap
      rw [setIndex_handlers]
      simp only [Nat.cast_ofNat]
      omega)
  rw [Next]
  exact hr.2.1

/-! ## After `Fail` no slot is invoked -/

theorem qaf_of_no_enter :
    ∀ F : List Event, (∀ e ∈ F, e.isEnter = false) → quietAfterFail F = true := by
  intro F
  induction F with
  | nil => intro _; rfl
  | cons e F ih =>
    intro hF
    have ih' := ih (fun x hx => hF x (List.mem_cons_of_mem _ hx))
    by_cases he : e.isFailed = true
    · simp only [quietAfterFail, he, if_true, List.all_eq_true]
      intro x hx
      simp [hF x (List.mem_cons_of_mem _ hx)]
    · simp [quietAfterFail, he, ih']

theorem qaf_append_quiet :
    ∀ t F : List Event, quietAfterFail t = true → (∀ e ∈ F, e.isEnter = false) →
      quietAfterFail (t ++ F) = true := by
  intro t
  induction t with
  | nil => intro F _ hF; exact qaf_of_no_enter F hF
  | cons x t ih =>
    intro F ht hF
    by_cases hx : x.isFailed = true
    · simp only [quietAfterFail, hx, if_true, List.all_eq_true] at ht
      simp only [List.cons_append, quietAfterFail, hx, if_true, List.all_eq_true]
      intro y hy
      rcases List.mem_append.1 hy with hy | hy
      · exact ht y hy
      · simp [hF y hy]
    · simp only [quietAfterFail, hx] at ht
      simp only [List.cons_append, quietAfterFail, hx]
      exact ih F ht hF

theorem qaf_append_enter :
    ∀ (t : List Event) (i : Int), hasFail t = false →
      quietAfterFail (t ++ [Event.enter i]) = true := by
  intro t
  induction t with
  | nil => intro i _; rfl
  | cons x t ih =>
    intro i ht
    simp only [hasFail, List.any_cons, Bool.or_eq_false_iff] at ht
    simp only [List.cons_append, quietAfterFail, ht.1]
    exact ih i (by simpa [hasFail] using ht.2)

theorem qaf_spec :
    ∀ (a b : List Event) (code : Int), quietAfterFail (a ++ Event.failed code :: b) = true →
      ∀ i, Event.enter i ∉ b := by
  intro a
  induction a with
  | nil =>
    intro b code hq i hi
    simp only [List.nil_append, quietAfterFail, Event.isFailed, if_true, List.all_eq_true] at hq
    have := hq _ hi
    simp [Event.isEnter] at this
  | cons x a ih =>
    intro b code hq i hi
    by_cases hx : x.isFailed = true
    · simp only [List.cons_append, quietAfterFail, hx, if_true, List.all_eq_true] at hq
      have := hq (Event.enter i) (by simp [hi])
      simp [Event.isEnter] at this
    · simp only [List.cons_append, quietAfterFail, hx] at hq
      exact ih b code hq i hi

theorem sealed_emit (c : Context) (e : Event) (hs : Sealed c)
    (h1 : e.isEnter = false) (h2 : e.isFailed = false) : Sealed (emit c e) := by
  obtain ⟨s1, s2, s3, s4⟩ := hs
  refine ⟨?_, s2, s3, ?_⟩
  · rw [emit_trace]
    exact qaf_append_quiet _ _ s1 (by simpa using h1)
  · intro hf
    apply s4
    simpa [hasFail, h2] using hf

theorem sealed_Fail (c : Context) (code : Int) (err : String) (hs : Sealed c) :
    (Fail c code err).handlers = c.handlers ∧ Sealed (Fail c code err) := by
  obtain ⟨s1, _, _, _⟩ := hs
  obtain ⟨f1, f2, ⟨F, f3, f4⟩, _⟩ := Fail_spec c code err
  have hb := int8_bounds (c.handlers.length : Int)
  refine ⟨f1, ?_, ?_, ?_, ?_⟩
  · rw [f3]
    apply qaf_append_quiet _ _ s1
    intro e he
    rcases List.mem_cons.1 he with he | he
    · rw [he]
      rfl
    · have := f4 e he
      cases e <;> simp [Event.isFailed] at this
      rfl
  · rw [f2]
    exact hb.1
  · rw [f2]
    exact hb.2
  · intro _
    rw [f2]
    unfold cap
    rw [f1]

theorem sealedLoop_incr (c : Context) (hs : Sealed c) :
    SealedLoop (setIndex c (int8 (c.index + 1))) := by
  obtain ⟨s1, s2, s3, s4⟩ := hs
  have hb := int8_bounds (c.index + 1)
  refine ⟨s1, hb.1, hb.2, ?_⟩
  intro hf
  have h4 := s4 hf
  have hcap : cap (setIndex c (int8 (c.index + 1))) = cap c := rfl
  rw [hcap, setIndex_index]
  unfold int8
  omega

theorem runBody_sealed (nxt : Context → Res) (pos : Int)
    (hnxt : ∀ c, Sealed c → StaysSealed c (nxt c)) :
    ∀ (ops : List Op) (c : Context), Sealed c → StaysSealed c (runBody nxt pos ops c) := by
  intro ops
  induction ops with
  | nil => intro c hs; exact ⟨rfl, hs.1, fun _ => hs⟩
  | cons op rest ih =>
    intro c hs
    cases op with
    | log tag =>
      rw [runBody]
      exact ih _ (sealed_emit c _ hs rfl rfl)
    | next =>
      obtain ⟨n1, n2, n3⟩ := hnxt c hs
      rw [runBody]
      cases hout : (nxt c).out with
      | ok =>
        obtain ⟨h1, h2, h3⟩ := ih _ (sealed_emit (nxt c).c (Event.resume pos) (n3 hout) rfl rfl)
        exact ⟨h1.trans n1, h2, h3⟩
      | panicked => exact ⟨n1, n2, by simp [hout]⟩
      | timeout => exact ⟨n1, n2, by simp [hout]⟩
    | fail code err =>
      obtain ⟨f1, f2⟩ := sealed_Fail c code err hs
      obtain ⟨h1, h2, h3⟩ := ih _ f2
      rw [runBody]
      exact ⟨h1.trans f1, h2, h3⟩
    | set key value =>
      rw [runBody]
      exact ih (Set c key value) hs
    | status code =>
      rw [runBody]
      exact ih (Status c code) hs

theorem forLoop_sealed (nxt : Context → Res)
    (hnxt : ∀ c, Sealed c → StaysSealed c (nxt c)) :
    ∀ (j : Nat) (c : Context), SealedLoop c → StaysSealed c (forLoop nxt (cap c) j c) := by
  intro j
  induction j with
  | zero =>
    intro c hs
    obtain ⟨s1, s2, s3, s4⟩ := hs
    rw [forLoop]
    by_cases hlt : c.index < cap c
    · simp only [hlt, if_true]
      cases handlerAt c <;> exact ⟨rfl, s1, by simp⟩
    · simp only [hlt, if_false]
      have hsc : Sealed c := ⟨s1, s2, s3, fun _ => by omega⟩
      exact ⟨rfl, s1, fun _ => hsc⟩
  | succ j ih =>
    intro c hs
    obtain ⟨s1, s2, s3, s4⟩ := hs
    rw [forLoop]
    by_cases hlt : c.index < cap c
    · simp only [hlt, if_true]
      cases hat : handlerAt c with
      | none => exact ⟨rfl, s1, by simp⟩
      | some h =>
        have h0 : 0 ≤ c.index := by
          by_contra hneg
          simp [handlerAt, hneg] at hat
        have hnf : hasFail c.trace = false := by
          by_contra hf
          have := s4 (by simpa using hf)
          omega
        have hs1 : Sealed (emit c (Event.enter c.index)) := by
          refine ⟨?_, s2, s3, ?_⟩
          · rw [emit_trace]
            exact qaf_append_enter _ _ hnf
          · intro hf
            have he : hasFail (emit c (Event.enter c.index)).trace = hasFail c.trace := by
              simp [hasFail, Event.isFailed]
            rw [he, hnf] at hf
            exact absurd hf (by simp)
        obtain ⟨b1, b2, b3⟩ := runBody_sealed nxt c.index hnxt h _ hs1
        simp only
        cases hout : (runBody nxt c.index h (emit c (Event.enter c.index))).out with
        | ok =>
          have hl := sealedLoop_incr _ (b3 hout)
          have hcap : cap (setIndex (runBody nxt c.index h (emit c (Event.enter c.index))).c
              (int8 ((runBody nxt c.index h (emit c (Event.enter c.index))).c.index + 1)))
              = cap c := by
            unfold cap
            rw [setIndex_handlers, b1]
            rfl
          obtain ⟨l1, l2, l3⟩ := ih _ hl
          rw [hcap] at l1 l2 l3
          simp only
          exact ⟨by rw [l1]; exact b1, l2, l3⟩
        | panicked => exact ⟨b1, b2, by simp [hout]⟩
        | timeout => exact ⟨b1, b2, by simp [hout]⟩
    · simp only [hlt, if_false]
      have hsc : Sealed c := ⟨s1, s2, s3, fun _ => by omega⟩
      exact ⟨rfl, s1, fun _ => hsc⟩

theorem Next_sealed : ∀ (fuel : Nat) (c : Context), Sealed c → StaysSealed c (Next fuel c) := by
  intro fuel
  induction fuel with
  | zero => intro c hs; exact ⟨rfl, hs.1, by simp [Next]⟩
  | succ m ih =>
    intro c hs
    rw [Next]
    exact forLoop_sealed (Next m) ih m _ (sealedLoop_incr c hs)

/-- Counterexample to C5: on a chain of 128 handlers `Fail` leaves the cursor
at `-128`, which is not the length of the chain. -/
theorem C5_counterexample :
    (fresh (List.replicate 128 [])).handlers.length = 128 ∧
    (Fail (fresh (List.replicate 128 [])) 500 "x").index = -128 ∧
    (Fail (fresh (List.replicate 128 [])) 500 "x").index
      ≠ ((fresh (List.replicate 128 [])).handlers.length : Int) := by
  have h1 : (fresh (List.replicate 128 [])).handlers.length = 128 := by
    simp [fresh]
  have h2 : (Fail (fresh (List.replicate 128 [])) 500 "x").index = -128 := by
    rw [(Fail_spec _ _ _).2.1]
    unfold cap
    rw [h1]
    decide
  refine ⟨h1, h2, ?_⟩
  rw [h2, h1]
  decide

/-- C5, amended: `Fail(code, msg)` sets the cursor to `int8(len(c.handlers))`,
which is the length of the chain when the chain has at most 127 handlers, and,
the response write succeeding, sets `StatusCode` to `code`; and in every run
started by `Next` on a fresh context, whatever the chain and the outcomes of
the response writes, no slot is invoked after a call of `Fail`; fuel `128`
is enough for the run to end. -/
theorem C5_fail_seals_chain (c : Context) (code : Int) (err : String)
    (hw : c.writes.head? ≠ some false)
    (hs : List HandlerFunc) (ws : List Bool) (fuel : Nat) :
    (Fail c code err).index = int8 (c.handlers.length : Int) ∧
    (c.handlers.length ≤ 127 → (Fail c code err).index = (c.handlers.length : Int)) ∧
    (Fail c code err).StatusCode = code ∧
    (Fail c code err).handlers = c.handlers ∧
    (∀ (a b : List Event) (code' : Int),
      (Next fuel { fresh hs with writes := ws }).c.trace = a ++ Event.failed code' :: b →
      ∀ i, Event.enter i ∉ b) ∧
    (128 ≤ fuel → (Next fuel { fresh hs with writes := ws }).out ≠ Outcome.timeout) := by
  obtain ⟨f1, f2, _, _⟩ := Fail_spec c code err
  refine ⟨f2, ?_, ?_, f1, ?_, Next_halts _ rfl fuel⟩
  · intro hl
    rw [f2]
    unfold cap
    exact int8_of_range _ (by omega) (by omega)
  · unfold Fail JSON
    simp only [emit, setIndex]
    cases hws : c.writes with
    | nil => rfl
    | cons w ws' =>
      cases w with
      | true => rfl
      | false => simp [hws] at hw
  · intro a b code' htr i
    have hsealed : Sealed { fresh hs with writes := ws } :=
      ⟨rfl, by simp [fresh, newContext], by simp [fresh, newContext],
        fun hf => by simp [fresh, newContext, hasFail] at hf⟩
    have hq := (Next_sealed fuel _ hsealed).2.1
    rw [htr] at hq
    exact qaf_spec a b code' hq i

/-- Witness of the amended C5: the first handler calls `Fail`, whose first
response write fails, and then `Next`; the second handler is never invoked. -/
theorem C5_fail_seals_chain_witness :
    (Next 5 { fresh [[Op.fail 500 "boom", Op.next], [Op.log 1]] with writes := [false] }).c.trace
      = [Event.enter 0, Event.failed 500, Event.failed 500, Event.resume 0] ∧
    (Fail (fresh [[Op.log 1]]) 500 "boom").index = int8 ((fresh [[Op.log 1]]).handlers.length : Int) ∧
    (Fail (fresh [[Op.log 1]]) 500 "boom").StatusCode = 500 ∧
    (∀ (a b : List Event) (code' : Int),
      (Next 5 { fresh [[Op.fail 500 "boom", Op.next], [Op.log 1]] with writes := [false] }).c.trace
        = a ++ Event.failed code' :: b →
      ∀ i, Event.enter i ∉ b) :=
  ⟨by decide,
   (C5_fail_seals_chain (fresh [[Op.log 1]]) 500 "boom" (by decide)
      [[Op.fail 500 "boom", Op.next], [Op.log 1]] [false] 5).1,
   (C5_fail_seals_chain (fresh [[Op.log 1]]) 500 "boom" (by decide)
      [[Op.fail 500 "boom", Op.next], [Op.log 1]] [false] 5).2.2.1,
   (C5_fail_seals_chain (fresh [[Op.log 1]]) 500 "boom" (by decide)
      [[Op.fail 500 "boom", Op.next], [Op.log 1]] [false] 5).2.2.2.2.1⟩

end Fgee
